import Mathlib

/-!
Verification development for the portfolio-dashboard computation core.

The TypeScript sources are embedded shallowly:
* numeric vectors (`number[]`) become `List ℚ`; all arithmetic is exact.
  The only non-rational operation the code performs is `jStat.stdev`
  (a square root); every function that calls it takes the standard
  deviation as an explicit oracle argument, constrained in theorems by
  the predicate `IsVol` (`v ≥ 0` and `v ^ 2` equals the sample variance),
  which is exactly the real-number specification of the square root.
* the portfolio tree (`AssetClass` / `Asset` from `types.ts`) becomes the
  mutual inductives `PNode` / `PNodeList`.
* the `while (parent)` walk used to resolve absolute weights becomes
  `chainWeight`, written with an explicit fuel parameter: the source loop
  terminates exactly when the parent chain resolves, and every theorem
  assumes fuel at least the chain length.
* calendar dates are outside the claims; `PortfolioData` keeps the tree
  and the benchmark series.  The date-dependent month count of the `YTD`
  window is passed as a parameter (`ytdMonths`).
-/

/-- Arithmetic mean of a list (`jStat.mean`); `0` on the empty list
via the `x / 0 = 0` convention of `ℚ`. -/
def listMean (xs : List ℚ) : ℚ := xs.sum / xs.length

/-- Bessel-corrected sample variance (`jStat.variance(xs, true)`),
with the `x / 0 = 0` convention when `xs.length ≤ 1`. -/
def sampleVar (xs : List ℚ) : ℚ :=
  (xs.map (fun x => (x - listMean xs) ^ 2)).sum / ((xs.length : ℚ) - 1)

/-- `IsVol xs v` says `v` is the value `jStat.stdev(xs, true)` returns in
exact real arithmetic: the nonnegative square root of the sample variance. -/
def IsVol (xs : List ℚ) (v : ℚ) : Prop := 0 ≤ v ∧ v ^ 2 = sampleVar xs

/-- `calculateCovariance` from `src/utils/riskCalculations.ts` (lines 100-119):
`0` on empty or length-mismatched inputs, otherwise
`Σ (a_i − ā)(b_i − b̄) / (n − 1)`. -/
def calculateCovariance (returns1 returns2 : List ℚ) : ℚ :=
  if returns1.length = 0 ∨ returns2.length = 0 ∨ returns1.length ≠ returns2.length then 0
  else
    ((returns1.zip returns2).map
      (fun p => (p.1 - listMean returns1) * (p.2 - listMean returns2))).sum /
      ((returns1.length : ℚ) - 1)

/-- `calculateCumulativeReturn` from `src/utils/performanceCalculations.ts`
(lines 5-18): `Π (1 + r_i) − 1`, `0` on the empty list. -/
def calculateCumulativeReturn (returns : List ℚ) : ℚ :=
  if returns.length = 0 then 0
  else (returns.foldl (fun acc ret => acc * (1 + ret)) 1) - 1

/-- `calculateValueAtRisk` from `src/utils/riskCalculations.ts` (lines 61-79).
The source sorts ascending, takes `index = ⌊n·(1−confidence)⌋` and returns
`−sorted[index]`.  A JavaScript out-of-bounds read yields `undefined`, so the
function then returns `NaN`; the embedding returns `none` in that case and
`some` of the negated element when the access is in bounds. -/
def calculateValueAtRisk (returns : List ℚ) (confidenceLevel : ℚ) : Option ℚ :=
  if returns.length = 0 then some 0
  else
    let sorted := returns.mergeSort (fun a b => decide (a ≤ b))
    let index : ℤ := ⌊(returns.length : ℚ) * (1 - confidenceLevel)⌋
    if 0 ≤ index ∧ index.toNat < sorted.length then
      some (-(sorted.getD index.toNat 0))
    else none

/-- `calculateMaxDrawdown` from `src/utils/riskCalculations.ts` (lines 25-58):
cumulative wealth index, running peak, maximal relative drawdown. -/
def calculateMaxDrawdown (returns : List ℚ) : ℚ :=
  match returns with
  | [] => 0
  | r0 :: rest =>
    let step := fun (st : ℚ × ℚ × ℚ) (r : ℚ) =>
      let value := st.1 * (1 + r)
      let peak := st.2.1
      let maxDD := st.2.2
      if peak < value then (value, value, maxDD)
      else (value, peak, max maxDD ((peak - value) / peak))
    (rest.foldl step (1 + r0, 1 + r0, 0)).2.2

/-- `calculateTrackingError` from `src/utils/riskCalculations.ts`
(lines 82-97); `stdev` is the standard-deviation oracle standing for
`calculateVolatility` (`jStat.stdev`). -/
def calculateTrackingError (stdev : List ℚ → ℚ)
    (portfolioReturns benchmarkReturns : List ℚ) : ℚ :=
  if portfolioReturns.length = 0 ∨ benchmarkReturns.length = 0 ∨
      portfolioReturns.length ≠ benchmarkReturns.length then 0
  else stdev ((portfolioReturns.zip benchmarkReturns).map (fun p => p.1 - p.2))

/-- `calculateBeta` from `src/utils/riskCalculations.ts` (lines 144-162):
covariance over benchmark sample variance, `0` when the latter is `0`. -/
def calculateBeta (portfolioReturns benchmarkReturns : List ℚ) : ℚ :=
  if portfolioReturns.length = 0 ∨ benchmarkReturns.length = 0 ∨
      portfolioReturns.length ≠ benchmarkReturns.length then 0
  else
    let cov := calculateCovariance portfolioReturns benchmarkReturns
    let benchmarkVar := sampleVar benchmarkReturns
    if benchmarkVar = 0 then 0 else cov / benchmarkVar

/-- `calculateAlpha` from `src/utils/riskCalculations.ts` (lines 165-181). -/
def calculateAlpha (portfolioReturns benchmarkReturns : List ℚ)
    (riskFreeRate : ℚ) : ℚ :=
  if portfolioReturns.length = 0 ∨ benchmarkReturns.length = 0 ∨
      portfolioReturns.length ≠ benchmarkReturns.length then 0
  else
    listMean portfolioReturns -
      (riskFreeRate + calculateBeta portfolioReturns benchmarkReturns *
        (listMean benchmarkReturns - riskFreeRate))

/-- `calculateSharpeRatio` from `src/utils/riskCalculations.ts`
(lines 184-202), with the standard-deviation oracle. -/
def calculateSharpeRatio (stdev : List ℚ → ℚ) (returns : List ℚ)
    (riskFreeRate : ℚ) : ℚ :=
  if returns.length = 0 then 0
  else
    let vol := stdev returns
    if vol = 0 then 0 else (listMean returns - riskFreeRate) / vol

/-- `calculateInformationRatio` from `src/utils/riskCalculations.ts`
(lines 205-229). -/
def calculateInformationRatio (stdev : List ℚ → ℚ)
    (portfolioReturns benchmarkReturns : List ℚ) : ℚ :=
  if portfolioReturns.length = 0 ∨ benchmarkReturns.length = 0 ∨
      portfolioReturns.length ≠ benchmarkReturns.length then 0
  else
    let te := calculateTrackingError stdev portfolioReturns benchmarkReturns
    if te = 0 then 0
    else listMean ((portfolioReturns.zip benchmarkReturns).map (fun p => p.1 - p.2)) / te

/-! ## The portfolio tree (`types.ts`) -/

mutual

/-- `AssetClass | Asset` from `src/types.ts`: `asset` carries a return
series, `cls` carries children.  `parent` is the optional back-reference
`parentId`. -/
inductive PNode where
  | asset (id name : String) (allocation : ℚ) (returns : List ℚ) (parent : Option String) : PNode
  | cls (id name : String) (allocation : ℚ) (children : PNodeList) (parent : Option String) : PNode
  deriving DecidableEq

/-- Children sequence of an `AssetClass`. -/
inductive PNodeList where
  | nil : PNodeList
  | cons (hd : PNode) (tl : PNodeList) : PNodeList
  deriving DecidableEq

end

instance : Inhabited PNode := ⟨.asset "" "" 0 [] none⟩

/-- `id` field of a node. -/
def nodeId : PNode → String
  | .asset i _ _ _ _ => i
  | .cls i _ _ _ _ => i

/-- `allocation` field of a node. -/
def nodeAlloc : PNode → ℚ
  | .asset _ _ a _ _ => a
  | .cls _ _ a _ _ => a

/-- `parent` field of a node. -/
def nodeParent : PNode → Option String
  | .asset _ _ _ _ p => p
  | .cls _ _ _ _ p => p

/-- `name` field of a node. -/
def nodeName : PNode → String
  | .asset _ n _ _ _ => n
  | .cls _ n _ _ _ => n

/-- `returns` of a leaf (`[]` on an `AssetClass`, which has none). -/
def returnsOf : PNode → List ℚ
  | .asset _ _ _ rs _ => rs
  | .cls _ _ _ _ _ => []

mutual

/-- `findNodeById` (identical helper in `performanceCalculations.ts`,
`riskCalculations.ts` and the worker): depth-first search by `id`. -/
def findNodeById : PNode → String → Option PNode
  | n@(.asset _ _ _ _ _), i => if nodeId n = i then some n else none
  | n@(.cls _ _ _ children _), i =>
    if nodeId n = i then some n else findInList children i

/-- Search the children in order (the `for (const child of node.children)`
loop of `findNodeById`). -/
def findInList : PNodeList → String → Option PNode
  | .nil, _ => none
  | .cons c cs, i =>
    match findNodeById c i with
    | some found => some found
    | none => findInList cs i

end

mutual

/-- `extractAssets`: pre-order collection of the leaves.  The source pushes a
node only when it has no `children` field, so an `AssetClass` with an empty
children list is silently dropped, and recursion happens only for
`children.length > 0`. -/
def extractAssets : PNode → List PNode
  | n@(.asset _ _ _ _ _) => [n]
  | .cls _ _ _ children _ => extractFromList children

/-- Leaf collection over a children sequence. -/
def extractFromList : PNodeList → List PNode
  | .nil => []
  | .cons c cs => extractAssets c ++ extractFromList cs

end

/-- The `while (parent)` loop that resolves an absolute weight (identical in
`calculatePortfolioReturns`, `calculateRiskContributions` and the worker):
look the parent id up in the whole tree, multiply `allocation / 100` in, move
to that node's parent; stop on a failed lookup.  `fuel` bounds the number of
steps; the source loop terminates exactly when the chain resolves within any
sufficiently large fuel. -/
def chainWeight (root : PNode) : Nat → Option String → ℚ → ℚ
  | _, none, w => w
  | 0, some _, w => w
  | fuel + 1, some pid, w =>
    match findNodeById root pid with
    | some parentNode =>
      chainWeight root fuel (nodeParent parentNode) (w * (nodeAlloc parentNode / 100))
    | none => w

/-- Absolute weight of a leaf as the source computes it: start from the
leaf's own `allocation / 100` and walk the parent chain. -/
def loopWeight (root : PNode) (fuel : Nat) (a : PNode) : ℚ :=
  chainWeight root fuel (nodeParent a) (nodeAlloc a / 100)

/-- Benchmark keys (`types.ts`). -/
inductive Benchmark where
  | market
  | sp500
  | msciWorld
  | custom
  deriving DecidableEq

/-- `PortfolioData` from `types.ts`, restricted to the fields the claims
are about: the tree and the four benchmark series (the calendar timeframe
carries no information the claims mention). -/
structure PortfolioData where
  wholePortfolio : PNode
  benchmarks : Benchmark → List ℚ

/-- Weighted return accumulated for one period (`weightedReturn` in the
source loop): each asset contributes `weight * returns[i]` when `i` is
within its series. -/
def weightedAt (root : PNode) (fuel : Nat) (assets : List PNode) (i : Nat) : ℚ :=
  (assets.map (fun a =>
    if i < (returnsOf a).length then loopWeight root fuel a * (returnsOf a).getD i 0
    else 0)).sum

/-- Total weight accumulated for one period (`totalWeight` in the source
loop). -/
def totalWeightAt (root : PNode) (fuel : Nat) (assets : List PNode) (i : Nat) : ℚ :=
  (assets.map (fun a =>
    if i < (returnsOf a).length then loopWeight root fuel a else 0)).sum

/-- One period of the weight-normalized portfolio return: `weighted / total`
when the total weight is positive, `0` otherwise. -/
def periodReturn (root : PNode) (fuel : Nat) (assets : List PNode) (i : Nat) : ℚ :=
  if 0 < totalWeightAt root fuel assets i
  then weightedAt root fuel assets i / totalWeightAt root fuel assets i
  else 0

/-- The shared body of the portfolio-return computation: one entry per index
of the first collected leaf's series. -/
def portfolioReturnsAux (root : PNode) (fuel : Nat) (a0 : PNode)
    (assets : List PNode) : List ℚ :=
  (List.range (returnsOf a0).length).map (periodReturn root fuel assets)

/-- `calculatePortfolioReturns` from `src/utils/performanceCalculations.ts`
(lines 54-114): returns `[]` when no leaves were collected or the first
collected leaf's series is empty, otherwise the weight-normalized averages
over `assets[0].returns.length` periods. -/
def calculatePortfolioReturns (portfolioData : PortfolioData) (fuel : Nat) : List ℚ :=
  match extractAssets portfolioData.wholePortfolio with
  | [] => []
  | a0 :: rest =>
    if (returnsOf a0).length = 0 then []
    else portfolioReturnsAux portfolioData.wholePortfolio fuel a0 (a0 :: rest)

/-- One entry of the `riskContributions` output
(`{id, name, contribution, contributionPercentage}`). -/
structure RiskContribution where
  id : String
  name : String
  contribution : ℚ
  contributionPercentage : ℚ
  deriving DecidableEq

instance : Inhabited RiskContribution := ⟨⟨"", "", 0, 0⟩⟩

/-- One entry of the `riskContributions.map` in
`calculateRiskContributions`: `{id, name, weight * cov / portfolioVol, 0}`
for one asset (`portfolioVol` is `stdev p`). -/
def rcEntry (stdev : List ℚ → ℚ) (root : PNode) (fuel : Nat) (p : List ℚ)
    (a : PNode) : RiskContribution :=
  { id := nodeId a
    name := nodeName a
    contribution :=
      loopWeight root fuel a * calculateCovariance (returnsOf a) p / stdev p
    contributionPercentage := 0 }

/-- The percentage-filling pass shared by `calculateRiskContributions` and
the worker's step trace: when the total contribution is positive, set each
`contributionPercentage` to `contribution / total * 100`. -/
def rcFillPercentages (l : List RiskContribution) : List RiskContribution :=
  if 0 < (l.map (fun c => c.contribution)).sum then
    l.map (fun c =>
      { c with contributionPercentage :=
          c.contribution / (l.map (fun c => c.contribution)).sum * 100 })
  else l

/-- `calculateRiskContributions` from `src/utils/riskCalculations.ts`
(lines 284-395).  Guards in source order: empty leaf list, empty first
series, zero portfolio volatility.  Each contribution is
`weight * cov / portfolioVol`; percentages are filled in only when the total
contribution is positive.  `stdev` is the `jStat.stdev` oracle. -/
def calculateRiskContributions (stdev : List ℚ → ℚ)
    (portfolioData : PortfolioData) (fuel : Nat) : List RiskContribution :=
  match extractAssets portfolioData.wholePortfolio with
  | [] => []
  | a0 :: rest =>
    if (returnsOf a0).length = 0 then []
    else if stdev (portfolioReturnsAux portfolioData.wholePortfolio fuel a0 (a0 :: rest)) = 0
      then []
    else
      rcFillPercentages ((a0 :: rest).map
        (rcEntry stdev portfolioData.wholePortfolio fuel
          (portfolioReturnsAux portfolioData.wholePortfolio fuel a0 (a0 :: rest))))

/-- One entry of the `calculationSteps` trace emitted by the worker
(`calculateRiskMetrics`). -/
structure CalculationStep where
  assetName : String
  assetId : String
  weight : ℚ
  individualVolatility : ℚ
  marginalContribution : ℚ
  contribution : ℚ
  contributionPercentage : ℚ
  portfolioVolatility : ℚ
  deriving DecidableEq

instance : Inhabited CalculationStep := ⟨⟨"", "", 0, 0, 0, 0, 0, 0⟩⟩

/-- The success payload of the worker (`{portfolioVolatility, ...,
riskContributions, calculationSteps}`).  `valueAtRisk` is `Option`-valued
because the underlying function can produce `NaN` (modelled as `none`). -/
structure RiskResults where
  portfolioVolatility : ℚ
  benchmarkVolatility : ℚ
  maxDrawdown : ℚ
  valueAtRisk : Option ℚ
  trackingError : ℚ
  beta : ℚ
  alpha : ℚ
  sharpeRatio : ℚ
  informationRatio : ℚ
  riskContributions : List RiskContribution
  calculationSteps : List CalculationStep

/-- One entry of the worker's `calculationSteps` trace for one asset:
`weight`, individual volatility, marginal contribution `cov / portfolioVol`,
contribution `weight * marginalContribution`, percentage `0` (filled later),
and the shared `portfolioVolatility` (`stdev p`). -/
def calcStep (stdev : List ℚ → ℚ) (root : PNode) (fuel : Nat) (p : List ℚ)
    (a : PNode) : CalculationStep :=
  { assetName := nodeName a
    assetId := nodeId a
    weight := loopWeight root fuel a
    individualVolatility := stdev (returnsOf a)
    marginalContribution := calculateCovariance (returnsOf a) p / stdev p
    contribution :=
      loopWeight root fuel a * (calculateCovariance (returnsOf a) p / stdev p)
    contributionPercentage := 0
    portfolioVolatility := stdev p }

/-- The worker's percentage-filling pass over the step trace. -/
def stepsFillPercentages (l : List CalculationStep) : List CalculationStep :=
  if 0 < (l.map (fun s => s.contribution)).sum then
    l.map (fun s =>
      { s with contributionPercentage :=
          s.contribution / (l.map (fun s => s.contribution)).sum * 100 })
  else l

/-- `calculateRiskMetrics` from the worker module: throws
(`Except.error`) when no leaves were collected or the first collected
leaf's series is empty; otherwise computes the aggregate metrics, the risk
contributions (via `calculateRiskContributions`) and the per-leaf
calculation-step trace, filling `contributionPercentage` only when the
total contribution is positive. -/
def calculateRiskMetrics (stdev : List ℚ → ℚ) (portfolioData : PortfolioData)
    (fuel : Nat) (benchmark : Benchmark) : Except String RiskResults :=
  match extractAssets portfolioData.wholePortfolio with
  | [] => Except.error "No asset returns data available"
  | a0 :: rest =>
    if (returnsOf a0).length = 0 then Except.error "No asset returns data available"
    else
      let portfolioReturns :=
        portfolioReturnsAux portfolioData.wholePortfolio fuel a0 (a0 :: rest)
      let benchmarkReturns := portfolioData.benchmarks benchmark
      Except.ok
        { portfolioVolatility := stdev portfolioReturns
          benchmarkVolatility := stdev benchmarkReturns
          maxDrawdown := calculateMaxDrawdown portfolioReturns
          valueAtRisk := calculateValueAtRisk portfolioReturns (95 / 100)
          trackingError := calculateTrackingError stdev portfolioReturns benchmarkReturns
          beta := calculateBeta portfolioReturns benchmarkReturns
          alpha := calculateAlpha portfolioReturns benchmarkReturns (1 / 1000)
          sharpeRatio := calculateSharpeRatio stdev portfolioReturns (1 / 1000)
          informationRatio := calculateInformationRatio stdev portfolioReturns benchmarkReturns
          riskContributions := calculateRiskContributions stdev portfolioData fuel
          calculationSteps := stepsFillPercentages ((a0 :: rest).map
            (calcStep stdev portfolioData.wholePortfolio fuel portfolioReturns)) }

/-! ## Time-window filtering (`src/utils/portfolioUtils.ts`) -/

/-- Symbolic lookback periods (`types.ts`). -/
inductive TimePeriod where
  | m1
  | m3
  | m6
  | y1
  | y3
  | y5
  | y10
  | ytd
  deriving DecidableEq

/-- The `switch (timePeriod)` of `filterPortfolioDataByTimePeriod`.  The
`YTD` count is computed from the current date in the source
(`⌊elapsed days / 30⌋`); the embedding takes that nonnegative count as the
parameter `ytdMonths`. -/
def monthsFor (timePeriod : TimePeriod) (ytdMonths : Nat) : Nat :=
  match timePeriod with
  | .m1 => 1
  | .m3 => 3
  | .m6 => 6
  | .y1 => 12
  | .y3 => 36
  | .y5 => 60
  | .y10 => 120
  | .ytd => ytdMonths

/-- JavaScript `array.slice(-m)`: the whole array when `m = 0`
(`slice(-0)` is `slice(0)`), otherwise the trailing `min m length`
entries. -/
def sliceLast (m : Nat) (xs : List ℚ) : List ℚ :=
  if m = 0 then xs else xs.drop (xs.length - m)

mutual

/-- The `filterAssetReturns` recursion: recurse into nonempty children,
slice a node that carries `returns`, leave an empty `AssetClass`
untouched. -/
def filterNode (m : Nat) : PNode → PNode
  | .asset i n a rs p => .asset i n a (sliceLast m rs) p
  | .cls i n a .nil p => .cls i n a .nil p
  | .cls i n a (.cons c cs) p => .cls i n a (filterList m (.cons c cs)) p

/-- `filterAssetReturns` over a children sequence. -/
def filterList (m : Nat) : PNodeList → PNodeList
  | .nil => .nil
  | .cons c cs => .cons (filterNode m c) (filterList m cs)

end

/-- `filterPortfolioDataByTimePeriod` from `src/utils/portfolioUtils.ts`
(lines 4-86): deep-copies the snapshot, slices every leaf's and every
benchmark's series to the window. -/
def filterPortfolioDataByTimePeriod (portfolioData : PortfolioData)
    (timePeriod : TimePeriod) (ytdMonths : Nat) : PortfolioData :=
  let monthsToInclude := monthsFor timePeriod ytdMonths
  { wholePortfolio := filterNode monthsToInclude portfolioData.wholePortfolio
    benchmarks := fun b => sliceLast monthsToInclude (portfolioData.benchmarks b) }

/-- Replace a leaf's return series by a function of it (an `AssetClass` is
unchanged); used to state what the window filter does to the collected
leaves. -/
def updReturns (f : List ℚ → List ℚ) : PNode → PNode
  | .asset i n a rs p => .asset i n a (f rs) p
  | n@(.cls _ _ _ _ _) => n

/-! ## Structural scaffolding for the weight-normalization claim -/

/-- Sum of the `allocation` fields of a children sequence. -/
def childAllocSum : PNodeList → ℚ
  | .nil => 0
  | .cons c cs => nodeAlloc c + childAllocSum cs

mutual

/-- Every `AssetClass` in the tree has direct children whose allocations
sum to exactly `100` (an `AssetClass` with no children has sum `0`, so this
also rules empty aggregates out). -/
def allSums100 : PNode → Prop
  | .asset _ _ _ _ _ => True
  | .cls _ _ _ children _ => childAllocSum children = 100 ∧ allSums100List children

/-- `allSums100` over a children sequence. -/
def allSums100List : PNodeList → Prop
  | .nil => True
  | .cons c cs => allSums100 c ∧ allSums100List cs

end

mutual

/-- Decidability of `allSums100`. -/
def decAllSums100 : (n : PNode) → Decidable (allSums100 n)
  | .asset _ _ _ _ _ => isTrue trivial
  | .cls _ _ _ children _ =>
    match decEq (childAllocSum children) 100, decAllSums100List children with
    | isTrue h1, isTrue h2 => isTrue ⟨h1, h2⟩
    | isFalse h1, _ => isFalse (fun h => h1 h.1)
    | _, isFalse h2 => isFalse (fun h => h2 h.2)

/-- Decidability of `allSums100List`. -/
def decAllSums100List : (l : PNodeList) → Decidable (allSums100List l)
  | .nil => isTrue trivial
  | .cons c cs =>
    match decAllSums100 c, decAllSums100List cs with
    | isTrue h1, isTrue h2 => isTrue ⟨h1, h2⟩
    | isFalse h1, _ => isFalse (fun h => h1 h.1)
    | _, isFalse h2 => isFalse (fun h => h2 h.2)

end

instance (n : PNode) : Decidable (allSums100 n) := decAllSums100 n

mutual

/-- Pre-order collection of the leaves together with their structural
ancestor chain, innermost ancestor first (ending with the root). -/
def leavesWithChain : PNode → List PNode → List (PNode × List PNode)
  | n@(.asset _ _ _ _ _), anc => [(n, anc)]
  | n@(.cls _ _ _ children _), anc => leavesWithChainList children (n :: anc)

/-- `leavesWithChain` over a children sequence. -/
def leavesWithChainList : PNodeList → List PNode → List (PNode × List PNode)
  | .nil, _ => []
  | .cons c cs, anc => leavesWithChain c anc ++ leavesWithChainList cs anc

end

/-- Product of `allocation / 100` along an ancestor chain. -/
def prodAllocs (anc : List PNode) : ℚ :=
  (anc.map (fun a => nodeAlloc a / 100)).prod

/-- The parent chain starting at `pid` resolves, via `findNodeById` against
`root`, to exactly the nodes of `anc` in order, and ends at a node with no
parent.  This is what "every leaf's parent chain resolving via parentId up
to the root" means for the id-based lookup loop. -/
def ChainOk (root : PNode) : List PNode → Option String → Prop
  | [], none => True
  | [], some _ => False
  | _ :: _, none => False
  | a :: rest, some pid => findNodeById root pid = some a ∧ ChainOk root rest (nodeParent a)

/-- Decidability of `ChainOk` (used to check concrete trees). -/
def decChainOk (root : PNode) : (anc : List PNode) → (pid : Option String) →
    Decidable (ChainOk root anc pid)
  | [], none => isTrue trivial
  | [], some _ => isFalse id
  | _ :: _, none => isFalse id
  | a :: rest, some pid =>
    match decEq (findNodeById root pid) (some a), decChainOk root rest (nodeParent a) with
    | isTrue h1, isTrue h2 => isTrue ⟨h1, h2⟩
    | isFalse h1, _ => isFalse (fun h => h1 h.1)
    | _, isFalse h2 => isFalse (fun h => h2 h.2)

instance (root : PNode) (anc : List PNode) (pid : Option String) :
    Decidable (ChainOk root anc pid) := decChainOk root anc pid

/-! ## Concrete instances used by the example claims -/

/-- The 3-leaf single-class portfolio of the spec's end-to-end example:
absolute weights `[0.5, 0.3, 0.2]`, return vectors `[0.01, 0.02]`,
`[0.00, 0.01]`, `[-0.01, 0.03]`. -/
def exampleTree : PNode :=
  .cls "portfolio" "Portfolio" 100 (
    .cons (.asset "a1" "A1" 50 [1/100, 2/100] (some "portfolio")) (
    .cons (.asset "a2" "A2" 30 [0, 1/100] (some "portfolio")) (
    .cons (.asset "a3" "A3" 20 [-1/100, 3/100] (some "portfolio")) .nil))) none

/-- Snapshot around `exampleTree` (benchmarks empty; unused). -/
def examplePD : PortfolioData := ⟨exampleTree, fun _ => []⟩

/-- A leaf whose `parentId` does not resolve anywhere in its tree. -/
def ghostAsset : PNode := .asset "a" "A" 50 [1/10] (some "ghost")

/-- A tree containing `ghostAsset`: the root's id is `root`, but the leaf's
`parentId` is the unresolvable `ghost`. -/
def ghostTree : PNode := .cls "root" "Root" 100 (.cons ghostAsset .nil) none

/-! ## C4 — the spec's end-to-end example -/

/-- C4, counterexample: on the spec's own 3-leaf example portfolio the code
does not produce `[0.003, 0.018]` — the second weighted average is
`0.5·0.02 + 0.3·0.01 + 0.2·0.03 = 0.019`, not `0.018`. -/
theorem example_portfolio_returns_cex :
    calculatePortfolioReturns examplePD 5 ≠ [3/1000, 18/1000] := by
  norm_num [calculatePortfolioReturns, examplePD, exampleTree, extractAssets,
    extractFromList, portfolioReturnsAux, periodReturn, weightedAt, totalWeightAt,
    loopWeight, chainWeight, findNodeById, findInList, nodeAlloc, nodeParent,
    returnsOf, nodeId, List.range, List.range.loop]

/-- C4, amended: the example portfolio yields `portfolioReturns =
[0.003, 0.019]`, and the cumulative return of that series is exactly
`1.003 · 1.019 − 1 = 0.022057` (the spec's `0.02105` corresponds to its
incorrect `0.018` second entry). -/
theorem example_portfolio_returns_exact :
    calculatePortfolioReturns examplePD 5 = [3/1000, 19/1000] ∧
    calculateCumulativeReturn (calculatePortfolioReturns examplePD 5) =
      22057/1000000 := by
  constructor <;>
  norm_num [calculatePortfolioReturns, calculateCumulativeReturn, examplePD,
    exampleTree, extractAssets, extractFromList, portfolioReturnsAux, periodReturn,
    weightedAt, totalWeightAt, loopWeight, chainWeight, findNodeById, findInList,
    nodeAlloc, nodeParent, returnsOf, nodeId, List.range, List.range.loop]

/-! ## C6 — behaviour of the weight loop on a broken ancestor chain -/

/-- C6, counterexample: `ghostAsset` is a leaf of `ghostTree` whose parent
lookup breaks (`findNodeById` fails on `ghost`), yet the weight loop returns
the partial product `0.5`, not `0` as claimed.  There is also no id-based
entry point that could fail with `NotFound`: the loop starts from the leaf
node itself, supplied by `extractAssets`. -/
theorem broken_chain_weight_cex :
    extractAssets ghostTree = [ghostAsset] ∧
    nodeParent ghostAsset = some "ghost" ∧
    findNodeById ghostTree "ghost" = none ∧
    loopWeight ghostTree 5 ghostAsset = 1/2 ∧
    loopWeight ghostTree 5 ghostAsset ≠ 0 := by
  refine ⟨?_, ?_, ?_, ?_, ?_⟩ <;>
    (simp [ghostTree, ghostAsset, extractAssets, extractFromList, loopWeight,
      chainWeight, findNodeById, findInList, nodeAlloc, nodeParent, nodeId]
     try norm_num)

/-- The parent chain starting at `pid` breaks after resolving exactly the
ancestors `anc` in order: every lookup along `anc` succeeds, and the lookup
of the parent id that follows the last resolved ancestor fails.  (With
`anc = []` the very first lookup fails.) -/
def ChainBreaks (root : PNode) : List PNode → Option String → Prop
  | [], none => False
  | [], some pid => findNodeById root pid = none
  | _ :: _, none => False
  | a :: rest, some pid =>
    findNodeById root pid = some a ∧ ChainBreaks root rest (nodeParent a)

/-- When the chain starting at `pid` breaks after the resolved ancestors
`anc` (and the fuel covers them), the source's weight loop stops at the
failed lookup and keeps the product accumulated so far. -/
theorem chainWeight_breaks (root : PNode) (anc : List PNode) :
    ∀ (pid : Option String) (fuel : Nat) (w : ℚ), ChainBreaks root anc pid →
      anc.length ≤ fuel → chainWeight root fuel pid w = w * prodAllocs anc := by
  induction anc with
  | nil =>
    intro pid fuel w hbr _
    cases pid with
    | none => exact absurd hbr id
    | some p =>
      have hmiss : findNodeById root p = none := hbr
      cases fuel with
      | zero => simp [chainWeight, prodAllocs]
      | succ f =>
        show chainWeight root (f + 1) (some p) w = _
        rw [chainWeight, hmiss]
        simp [prodAllocs]
  | cons a rest ih =>
    intro pid fuel w hbr hfuel
    cases pid with
    | none => exact absurd hbr id
    | some p =>
      obtain ⟨hfind, hrest⟩ := hbr
      cases fuel with
      | zero => simp at hfuel
      | succ f =>
        show chainWeight root (f + 1) (some p) w = _
        rw [chainWeight, hfind]
        show chainWeight root f (nodeParent a) (w * (nodeAlloc a / 100)) = _
        rw [ih (nodeParent a) f (w * (nodeAlloc a / 100)) hrest (by simpa using hfuel)]
        simp [prodAllocs]
        ring

/-- C6, amended: the weight resolution never fails and never returns a
forced `0`: it operates on the leaf node it is handed (so an unresolvable
`leafId` cannot arise), and when an ancestor lookup at *any* depth breaks
the chain it returns the partial product accumulated so far — the leaf's
own `allocation / 100` times the factors of the ancestors that did
resolve. -/
theorem broken_chain_weight_partial_product (root : PNode) (fuel : Nat)
    (a : PNode) (anc : List PNode)
    (hbreak : ChainBreaks root anc (nodeParent a))
    (hfuel : anc.length ≤ fuel) :
    loopWeight root fuel a = nodeAlloc a / 100 * prodAllocs anc := by
  unfold loopWeight
  exact chainWeight_breaks root anc (nodeParent a) fuel (nodeAlloc a / 100) hbreak hfuel

/-- A leaf under one resolvable asset class whose own parent id is
unresolvable: the chain breaks one level above the leaf. -/
def midGhostLeaf : PNode := .asset "m1" "M1" 50 [0] (some "mid")

/-- The resolvable intermediate class with the unresolvable parent. -/
def midGhostCls : PNode :=
  .cls "mid" "Mid" 60 (.cons midGhostLeaf .nil) (some "ghost")

/-- Tree for the mid-chain break: `root → mid → m1`, with `mid`'s parent id
`ghost` unresolvable. -/
def midGhostTree : PNode :=
  .cls "root" "Root" 100 (.cons midGhostCls .nil) none

/-- C6, witness for the amended theorem at a mid-chain break: the leaf's
parent `mid` resolves (contributing `60/100`), `mid`'s parent `ghost` does
not, and the loop returns `0.5 · 0.6 = 0.3`. -/
theorem broken_chain_weight_partial_product_witness :
    ChainBreaks midGhostTree [midGhostCls] (nodeParent midGhostLeaf) ∧
    loopWeight midGhostTree 5 midGhostLeaf
      = nodeAlloc midGhostLeaf / 100 * prodAllocs [midGhostCls] ∧
    loopWeight midGhostTree 5 midGhostLeaf = 3 / 10 :=
  have hbr : ChainBreaks midGhostTree [midGhostCls] (nodeParent midGhostLeaf) := by
    refine ⟨?_, ?_⟩ <;>
      simp [midGhostTree, midGhostCls, midGhostLeaf, findNodeById, findInList,
        nodeId, nodeParent, ChainBreaks]
  ⟨hbr,
    broken_chain_weight_partial_product midGhostTree 5 midGhostLeaf [midGhostCls]
      hbr (by simp),
    by
      simp [midGhostTree, midGhostCls, midGhostLeaf, loopWeight, chainWeight,
        findNodeById, findInList, nodeId, nodeParent, nodeAlloc]
      try norm_num⟩

/-! ## C5 — the time-window filter slices every series to a suffix -/

/-- For a positive month count, the JavaScript `slice(-m)` is exactly the
trailing-`m` suffix (`List.rtake`). -/
theorem sliceLast_eq_rtake {m : Nat} (hm : 1 ≤ m) (xs : List ℚ) :
    sliceLast m xs = xs.rtake m := by
  unfold sliceLast
  rw [if_neg (by omega)]
  rfl

mutual

/-- The window filter rewrites the collected leaves pointwise: filtering the
tree and then collecting leaves is collecting leaves and then slicing each
one's series. -/
theorem extractAssets_filterNode (m : Nat) (n : PNode) :
    extractAssets (filterNode m n) =
      (extractAssets n).map (updReturns (sliceLast m)) := by
  cases n with
  | asset i nm a rs p => rfl
  | cls i nm a children p =>
    cases children with
    | nil => rfl
    | cons c cs =>
      show extractFromList (filterList m (.cons c cs)) =
        (extractFromList (.cons c cs)).map (updReturns (sliceLast m))
      exact extractFromList_filterList m (.cons c cs)

/-- List version of `extractAssets_filterNode`. -/
theorem extractFromList_filterList (m : Nat) (l : PNodeList) :
    extractFromList (filterList m l) =
      (extractFromList l).map (updReturns (sliceLast m)) := by
  cases l with
  | nil => rfl
  | cons c cs =>
    show extractAssets (filterNode m c) ++ extractFromList (filterList m cs) = _
    rw [extractAssets_filterNode m c, extractFromList_filterList m cs]
    simp [extractFromList]

end

/-- C5, counterexample: with the `YTD` period in the first 30 days of
January the computed month count is `0`, and `slice(-0)` keeps the whole
series, so the filtered series is *not* the trailing `min(0, length)`
(empty) suffix the claim asks for. -/
theorem window_suffix_slice_cex :
    (filterPortfolioDataByTimePeriod ⟨exampleTree, fun _ => [1]⟩ .ytd 0).benchmarks .market
        = [1] ∧
    (filterPortfolioDataByTimePeriod ⟨exampleTree, fun _ => [1]⟩ .ytd 0).benchmarks .market
        ≠ (([1] : List ℚ).rtake (monthsFor .ytd 0)) := by
  constructor
  · rfl
  · intro h
    simp [filterPortfolioDataByTimePeriod, monthsFor, sliceLast, List.rtake] at h

/-- C5, amended: for every snapshot and every period whose month count `m`
is at least `1` (every fixed symbolic period, and `YTD` except in the first
30 days of January), the filtered snapshot's leaves are the original leaves
with their series replaced by the trailing `min(m, length)` entries
(`List.rtake`), and every benchmark series is likewise the trailing
`min(m, length)` suffix; in particular `10Y` on a 120-month snapshot keeps
every series whole and `1Y` keeps the last 12 entries. -/
theorem window_suffix_slice (pd : PortfolioData) (tp : TimePeriod)
    (ytdMonths : Nat) (m : Nat) (hm : monthsFor tp ytdMonths = m) (h1 : 1 ≤ m) :
    extractAssets ((filterPortfolioDataByTimePeriod pd tp ytdMonths).wholePortfolio)
        = (extractAssets pd.wholePortfolio).map (updReturns (fun rs => rs.rtake m)) ∧
    (∀ b, (filterPortfolioDataByTimePeriod pd tp ytdMonths).benchmarks b
        = (pd.benchmarks b).rtake m) ∧
    (∀ b, ((filterPortfolioDataByTimePeriod pd tp ytdMonths).benchmarks b).length
        = min m (pd.benchmarks b).length) ∧
    (∀ a, a ∈ extractAssets pd.wholePortfolio →
      returnsOf (updReturns (fun rs => rs.rtake m) a) = (returnsOf a).rtake m ∧
      (returnsOf (updReturns (fun rs => rs.rtake m) a)).length
        = min m (returnsOf a).length) := by
  have hrt : ∀ xs : List ℚ, sliceLast m xs = xs.rtake m := sliceLast_eq_rtake h1
  have hlen : ∀ xs : List ℚ, (xs.rtake m).length = min m xs.length := by
    intro xs
    show (xs.drop (xs.length - m)).length = min m xs.length
    rw [List.length_drop]
    omega
  refine ⟨?_, ?_, ?_, ?_⟩
  · show extractAssets (filterNode (monthsFor tp ytdMonths) pd.wholePortfolio) = _
    rw [hm, extractAssets_filterNode]
    exact List.map_congr_left (fun a _ => by
      cases a <;> simp [updReturns, hrt])
  · intro b
    show sliceLast (monthsFor tp ytdMonths) (pd.benchmarks b) = _
    rw [hm, hrt]
  · intro b
    show (sliceLast (monthsFor tp ytdMonths) (pd.benchmarks b)).length = _
    rw [hm, hrt, hlen]
  · intro a _
    cases a with
    | asset i nm al rs p => exact ⟨rfl, hlen rs⟩
    | cls i nm al ch p =>
      constructor <;> simp [updReturns, returnsOf, List.rtake]

/-- C5, witness: the amended window theorem applied to the example snapshot
with the `1Y` period (12 months). -/
theorem window_suffix_slice_witness :
    monthsFor .y1 0 = 12 ∧ 1 ≤ 12 ∧
    (∀ b, (filterPortfolioDataByTimePeriod examplePD .y1 0).benchmarks b
        = (examplePD.benchmarks b).rtake 12) :=
  ⟨rfl, by omega, (window_suffix_slice examplePD .y1 0 12 rfl (by omega)).2.1⟩

/-! ## C8 / C10 — Value-at-Risk index safety and monotonicity -/

/-- The index `⌊n·(1−confidence)⌋` computed by `calculateValueAtRisk`. -/
def varIdx (returns : List ℚ) (confidenceLevel : ℚ) : ℤ :=
  ⌊(returns.length : ℚ) * (1 - confidenceLevel)⌋

/-- The ascending sort used by `calculateValueAtRisk`. -/
def varSorted (returns : List ℚ) : List ℚ :=
  returns.mergeSort (fun a b => decide (a ≤ b))

/-- The comparator sort really sorts. -/
theorem varSorted_sorted (rs : List ℚ) : List.Sorted (· ≤ ·) (varSorted rs) := by
  have h := @List.sorted_mergeSort ℚ
    (fun a b : ℚ => decide (a ≤ b))
    (fun a b c hab hbc => by
      simp only [decide_eq_true_eq] at *
      exact le_trans hab hbc)
    (fun a b => by
      simp only [Bool.or_eq_true, decide_eq_true_eq]
      exact le_total a b)
    rs
  exact h.imp (fun hab => of_decide_eq_true hab)

/-- The sort is a permutation of the input. -/
theorem varSorted_perm (rs : List ℚ) : (varSorted rs).Perm rs :=
  List.mergeSort_perm rs _

/-- Unfolding `calculateValueAtRisk` through the helper names. -/
theorem calculateValueAtRisk_eq (rs : List ℚ) (c : ℚ) (h : rs.length ≠ 0) :
    calculateValueAtRisk rs c =
      if 0 ≤ varIdx rs c ∧ (varIdx rs c).toNat < (varSorted rs).length then
        some (-((varSorted rs).getD (varIdx rs c).toNat 0))
      else none := by
  unfold calculateValueAtRisk varIdx varSorted
  rw [if_neg h]

/-- In-bounds behaviour for `0 < confidence ≤ 1` on a nonempty list: the
index is in range and the result negates the sorted element there. -/
theorem var_in_bounds (rs : List ℚ) (c : ℚ) (hne : rs ≠ [])
    (hc0 : 0 < c) (hc1 : c ≤ 1) :
    0 ≤ varIdx rs c ∧ (varIdx rs c).toNat < rs.length ∧
    calculateValueAtRisk rs c =
      some (-((varSorted rs).getD (varIdx rs c).toNat 0)) := by
  have hlen : rs.length ≠ 0 := by
    intro h
    exact hne (List.eq_nil_of_length_eq_zero h)
  have hnpos : (0 : ℚ) < rs.length := by
    have := Nat.pos_of_ne_zero hlen
    exact_mod_cast this
  have h0 : 0 ≤ varIdx rs c := by
    apply Int.floor_nonneg.mpr
    have h1c : 0 ≤ 1 - c := by linarith
    positivity
  have hlt : varIdx rs c < (rs.length : ℤ) := by
    apply Int.floor_lt.mpr
    push_cast
    have : (rs.length : ℚ) * (1 - c) < rs.length * 1 := by
      apply mul_lt_mul_of_pos_left _ hnpos
      linarith
    simpa using this
  have htn : (varIdx rs c).toNat < rs.length := by
    rw [Int.toNat_lt h0]
    exact hlt
  refine ⟨h0, htn, ?_⟩
  rw [calculateValueAtRisk_eq rs c hlen, if_pos]
  exact ⟨h0, by rw [(varSorted_perm rs).length_eq]; exact htn⟩

/-- C10: for a nonempty series and `0 < confidence ≤ 1` the computed index
satisfies `0 ≤ index < n`, the array access is in bounds, and the result is
the negation of an actual element of the input; for `confidence ≤ 0` the
index reaches `n`, the access is out of bounds (JavaScript `undefined`,
hence a `NaN` result, modelled as `none`), and in particular the function
does not return the neutral value `0`. -/
theorem var_index_safety :
    (∀ (rs : List ℚ) (c : ℚ), rs ≠ [] → 0 < c → c ≤ 1 →
      0 ≤ varIdx rs c ∧ (varIdx rs c).toNat < rs.length ∧
      ∃ x, x ∈ rs ∧ calculateValueAtRisk rs c = some (-x)) ∧
    (∀ (rs : List ℚ) (c : ℚ), rs ≠ [] → c ≤ 0 →
      (rs.length : ℤ) ≤ varIdx rs c ∧ calculateValueAtRisk rs c = none ∧
      calculateValueAtRisk rs c ≠ some 0) := by
  constructor
  · intro rs c hne hc0 hc1
    obtain ⟨h0, htn, heq⟩ := var_in_bounds rs c hne hc0 hc1
    refine ⟨h0, htn, (varSorted rs).getD (varIdx rs c).toNat 0, ?_, heq⟩
    have hlt : (varIdx rs c).toNat < (varSorted rs).length := by
      rw [(varSorted_perm rs).length_eq]
      exact htn
    rw [List.getD_eq_getElem _ _ hlt]
    exact ((varSorted_perm rs).mem_iff).mp (List.getElem_mem hlt)
  · intro rs c hne hc0
    have hlen : rs.length ≠ 0 := by
      intro h
      exact hne (List.eq_nil_of_length_eq_zero h)
    have hge : (rs.length : ℤ) ≤ varIdx rs c := by
      apply Int.le_floor.mpr
      push_cast
      have h1 : (1 : ℚ) ≤ 1 - c := by linarith
      calc (rs.length : ℚ) = rs.length * 1 := by ring
      _ ≤ rs.length * (1 - c) := by
        apply mul_le_mul_of_nonneg_left h1
        positivity
    have hnone : calculateValueAtRisk rs c = none := by
      rw [calculateValueAtRisk_eq rs c hlen, if_neg]
      intro hcond
      obtain ⟨h0, hlt⟩ := hcond
      rw [(varSorted_perm rs).length_eq, Int.toNat_lt h0] at hlt
      omega
    exact ⟨hge, hnone, by rw [hnone]; intro h; cases h⟩

/-- C10, witness: both branches at concrete inputs
(`confidence = 0.95` in bounds, `confidence = 0` out of bounds). -/
theorem var_index_safety_witness :
    (0 ≤ varIdx [1/10, -2/10, 3/10] (95/100) ∧
      (varIdx [1/10, -2/10, 3/10] (95/100)).toNat < 3 ∧
      ∃ x, x ∈ ([1/10, -2/10, 3/10] : List ℚ) ∧
        calculateValueAtRisk [1/10, -2/10, 3/10] (95/100) = some (-x)) ∧
    (calculateValueAtRisk [1/10, -2/10, 3/10] 0 = none) := by
  constructor
  · exact var_index_safety.1 [1/10, -2/10, 3/10] (95/100)
      (by simp) (by norm_num) (by norm_num)
  · exact (var_index_safety.2 [1/10, -2/10, 3/10] 0 (by simp) (by norm_num)).2.1

/-- C8: for any fixed nonempty return series the empirical VaR at the 99%
confidence level is at least the VaR at 95%: both indices are in bounds,
the 99% index is not larger, and the ascending sort makes the negated
element there at least as large. -/
theorem var_monotone (rs : List ℚ) (hne : rs ≠ []) :
    ∃ v99 v95, calculateValueAtRisk rs (99/100) = some v99 ∧
      calculateValueAtRisk rs (95/100) = some v95 ∧ v95 ≤ v99 := by
  obtain ⟨h990, h99n, h99eq⟩ := var_in_bounds rs (99/100) hne (by norm_num) (by norm_num)
  obtain ⟨h950, h95n, h95eq⟩ := var_in_bounds rs (95/100) hne (by norm_num) (by norm_num)
  refine ⟨_, _, h99eq, h95eq, ?_⟩
  have hidx : varIdx rs (99/100) ≤ varIdx rs (95/100) := by
    apply Int.floor_le_floor
    have : (0 : ℚ) ≤ rs.length := by positivity
    nlinarith
  have h99s : (varIdx rs (99/100)).toNat < (varSorted rs).length := by
    rw [(varSorted_perm rs).length_eq]
    exact h99n
  have h95s : (varIdx rs (95/100)).toNat < (varSorted rs).length := by
    rw [(varSorted_perm rs).length_eq]
    exact h95n
  have hmono : (varSorted rs).getD (varIdx rs (99/100)).toNat 0 ≤
      (varSorted rs).getD (varIdx rs (95/100)).toNat 0 := by
    rw [List.getD_eq_getElem _ _ h99s, List.getD_eq_getElem _ _ h95s]
    have := (varSorted_sorted rs).rel_get_of_le
      (a := ⟨(varIdx rs (99/100)).toNat, h99s⟩)
      (b := ⟨(varIdx rs (95/100)).toNat, h95s⟩)
      (by
        simp only [Fin.mk_le_mk]
        omega)
    simpa [List.get_eq_getElem] using this
  linarith

/-- C8, witness: VaR monotonicity at a concrete series. -/
theorem var_monotone_witness :
    ∃ v99 v95, calculateValueAtRisk [1/10, -2/10, 3/10] (99/100) = some v99 ∧
      calculateValueAtRisk [1/10, -2/10, 3/10] (95/100) = some v95 ∧ v95 ≤ v99 :=
  var_monotone [1/10, -2/10, 3/10] (by simp)

/-! ## C7 — when the portfolio-return computation yields nothing -/

/-- Indexing a `List.range`-map: the `i`-th produced period value. -/
theorem getD_range_map (f : Nat → ℚ) (n i : Nat) (h : i < n) :
    ((List.range n).map f).getD i 0 = f i := by
  rw [List.getD_eq_getElem _ _ (by simpa using h)]
  simp

/-- A tree whose first collected leaf has an empty series while the second
leaf has data. -/
def emptyFirstTree : PNode :=
  .cls "root" "Root" 100 (
    .cons (.asset "x" "X" 50 [] (some "root")) (
    .cons (.asset "y" "Y" 50 [1/50] (some "root")) .nil)) none

/-- Snapshot around `emptyFirstTree`. -/
def emptyFirstPD : PortfolioData := ⟨emptyFirstTree, fun _ => []⟩

/-- C7, counterexample: `emptyFirstPD` has a leaf with a non-empty returns
series, yet `calculatePortfolioReturns` yields the empty list — the guard
looks only at the *first* collected leaf, and the function signals by
returning `[]`, not by raising a `NoReturnData` error. -/
theorem no_return_data_cex :
    (∃ a, a ∈ extractAssets emptyFirstPD.wholePortfolio ∧ returnsOf a ≠ []) ∧
    calculatePortfolioReturns emptyFirstPD 5 = [] := by
  constructor
  · refine ⟨.asset "y" "Y" 50 [1/50] (some "root"), ?_, by simp [returnsOf]⟩
    simp [emptyFirstPD, emptyFirstTree, extractAssets, extractFromList]
  · rfl

/-- C7, amended: `calculatePortfolioReturns` returns the empty list exactly
when no leaves were collected or the *first* collected (pre-order) leaf has
an empty series (the worker's `calculateRiskMetrics` throws under the same
condition); otherwise it produces one entry per index of the first leaf's
series, each the weight-normalized average over the leaves whose series
extend to that index (`0` when the total weight there is not positive). -/
theorem no_return_data_characterization (pd : PortfolioData) (fuel : Nat) :
    (calculatePortfolioReturns pd fuel = [] ↔
      extractAssets pd.wholePortfolio = [] ∨
      ∃ a0 rest, extractAssets pd.wholePortfolio = a0 :: rest ∧ returnsOf a0 = []) ∧
    (∀ a0 rest, extractAssets pd.wholePortfolio = a0 :: rest → returnsOf a0 ≠ [] →
      (calculatePortfolioReturns pd fuel).length = (returnsOf a0).length ∧
      ∀ i, i < (returnsOf a0).length →
        (calculatePortfolioReturns pd fuel).getD i 0 =
          if 0 < totalWeightAt pd.wholePortfolio fuel (a0 :: rest) i then
            weightedAt pd.wholePortfolio fuel (a0 :: rest) i /
              totalWeightAt pd.wholePortfolio fuel (a0 :: rest) i
          else 0) := by
  constructor
  · constructor
    · intro hempty
      unfold calculatePortfolioReturns at hempty
      cases hext : extractAssets pd.wholePortfolio with
      | nil => exact Or.inl rfl
      | cons a0 rest =>
        rw [hext] at hempty
        have hempty2 : (if (returnsOf a0).length = 0 then []
            else portfolioReturnsAux pd.wholePortfolio fuel a0 (a0 :: rest)) = [] := hempty
        by_cases hlen : (returnsOf a0).length = 0
        · exact Or.inr ⟨a0, rest, rfl, List.eq_nil_of_length_eq_zero hlen⟩
        · rw [if_neg hlen] at hempty2
          exfalso
          have : (portfolioReturnsAux pd.wholePortfolio fuel a0 (a0 :: rest)).length
              = (returnsOf a0).length := by
            simp [portfolioReturnsAux]
          rw [hempty2] at this
          simp at this
          omega
    · intro h
      unfold calculatePortfolioReturns
      rcases h with h | ⟨a0, rest, hext, hnil⟩
      · rw [h]
      · rw [hext]
        show (if (returnsOf a0).length = 0 then []
          else portfolioReturnsAux pd.wholePortfolio fuel a0 (a0 :: rest)) = []
        rw [if_pos (by rw [hnil]; rfl)]
  · intro a0 rest hext hnonnil
    have hlen : (returnsOf a0).length ≠ 0 := by
      intro h
      exact hnonnil (List.eq_nil_of_length_eq_zero h)
    have heq : calculatePortfolioReturns pd fuel =
        portfolioReturnsAux pd.wholePortfolio fuel a0 (a0 :: rest) := by
      unfold calculatePortfolioReturns
      rw [hext]
      show (if (returnsOf a0).length = 0 then []
        else portfolioReturnsAux pd.wholePortfolio fuel a0 (a0 :: rest)) = _
      rw [if_neg hlen]
    constructor
    · rw [heq]
      simp [portfolioReturnsAux]
    · intro i hi
      rw [heq]
      unfold portfolioReturnsAux
      rw [getD_range_map _ _ _ hi]
      rfl

/-- C7, witness: the characterization applied to the example snapshot,
whose first leaf has two return entries. -/
theorem no_return_data_characterization_witness :
    (calculatePortfolioReturns examplePD 5).length =
      (returnsOf (.asset "a1" "A1" 50 [1/100, 2/100] (some "portfolio"))).length :=
  ((no_return_data_characterization examplePD 5).2
    (.asset "a1" "A1" 50 [1/100, 2/100] (some "portfolio"))
    [.asset "a2" "A2" 30 [0, 1/100] (some "portfolio"),
     .asset "a3" "A3" 20 [-1/100, 3/100] (some "portfolio")]
    (by simp [examplePD, exampleTree, extractAssets, extractFromList])
    (by simp [returnsOf])).1

/-! ## C2 — weight normalization over valid trees -/

/-- `prodAllocs` distributes over `cons`. -/
theorem prodAllocs_cons (a : PNode) (rest : List PNode) :
    prodAllocs (a :: rest) = nodeAlloc a / 100 * prodAllocs rest := by
  simp [prodAllocs]

/-- When the parent chain starting at `pid` resolves to the ancestor list
`anc` and the fuel covers its length, the source's weight loop multiplies
exactly the ancestors' `allocation / 100` factors into the accumulator. -/
theorem chainWeight_resolves (root : PNode) (anc : List PNode) :
    ∀ (pid : Option String) (fuel : Nat) (w : ℚ), ChainOk root anc pid →
      anc.length ≤ fuel → chainWeight root fuel pid w = w * prodAllocs anc := by
  induction anc with
  | nil =>
    intro pid fuel w hok _
    cases pid with
    | none =>
      show chainWeight root fuel none w = w * prodAllocs []
      cases fuel <;> simp [chainWeight, prodAllocs]
    | some p => exact absurd hok id
  | cons a rest ih =>
    intro pid fuel w hok hfuel
    cases pid with
    | none => exact absurd hok id
    | some p =>
      obtain ⟨hfind, hrest⟩ := hok
      cases fuel with
      | zero => simp at hfuel
      | succ f =>
        show chainWeight root (f + 1) (some p) w = _
        rw [chainWeight, hfind]
        show chainWeight root f (nodeParent a) (w * (nodeAlloc a / 100)) = _
        rw [ih (nodeParent a) f (w * (nodeAlloc a / 100)) hrest (by simpa using hfuel)]
        rw [prodAllocs_cons]
        ring

mutual

/-- Structural weight sum: if every `AssetClass` under `n` has children
allocations summing to `100`, the leaves' structural weight products below
`n` add up to `n`'s own factor times the ambient chain product. -/
theorem leavesWithChain_sum (n : PNode) (anc : List PNode) (h : allSums100 n) :
    ((leavesWithChain n anc).map (fun p => nodeAlloc p.1 / 100 * prodAllocs p.2)).sum
      = nodeAlloc n / 100 * prodAllocs anc := by
  cases n with
  | asset i nm a rs p => simp [leavesWithChain, nodeAlloc]
  | cls i nm a children p =>
    show ((leavesWithChainList children ((PNode.cls i nm a children p) :: anc)).map
        (fun p => nodeAlloc p.1 / 100 * prodAllocs p.2)).sum = _
    rw [leavesWithChainList_sum children _ h.2, h.1, prodAllocs_cons]
    show (100 : ℚ) / 100 * (nodeAlloc (PNode.cls i nm a children p) / 100 * prodAllocs anc) = _
    ring

/-- List version of `leavesWithChain_sum`: the total over a children
sequence is the children's allocation sum (over 100) times the chain
product. -/
theorem leavesWithChainList_sum (l : PNodeList) (anc : List PNode)
    (h : allSums100List l) :
    ((leavesWithChainList l anc).map (fun p => nodeAlloc p.1 / 100 * prodAllocs p.2)).sum
      = childAllocSum l / 100 * prodAllocs anc := by
  cases l with
  | nil => simp [leavesWithChainList, childAllocSum]
  | cons c cs =>
    show (((leavesWithChain c anc) ++ (leavesWithChainList cs anc)).map
        (fun p => nodeAlloc p.1 / 100 * prodAllocs p.2)).sum = _
    rw [List.map_append, List.sum_append,
      leavesWithChain_sum c anc h.1, leavesWithChainList_sum cs anc h.2]
    show _ = (nodeAlloc c + childAllocSum cs) / 100 * prodAllocs anc
    ring

end

mutual

/-- The collected leaves are the first components of the decorated
leaf-with-chain collection. -/
theorem extractAssets_eq_leaves (n : PNode) (anc : List PNode) :
    extractAssets n = (leavesWithChain n anc).map Prod.fst := by
  cases n with
  | asset i nm a rs p => rfl
  | cls i nm a children p =>
    show extractFromList children =
      (leavesWithChainList children ((PNode.cls i nm a children p) :: anc)).map Prod.fst
    exact extractFromList_eq_leaves children _

/-- List version of `extractAssets_eq_leaves`. -/
theorem extractFromList_eq_leaves (l : PNodeList) (anc : List PNode) :
    extractFromList l = (leavesWithChainList l anc).map Prod.fst := by
  cases l with
  | nil => rfl
  | cons c cs =>
    show extractAssets c ++ extractFromList cs = _
    rw [extractAssets_eq_leaves c anc, extractFromList_eq_leaves cs anc]
    simp [leavesWithChainList]

end

/-- C2: for every tree whose root allocation is `100`, whose every
`AssetClass` has direct children allocations summing to exactly `100`, and
whose every leaf's parent chain resolves via `parentId` up to the root
(within the fuel bound), the sum over all collected leaves of the absolute
weight computed by the weight-traversal loop is exactly `1` — in
particular within the claimed `1e-6`. -/
theorem weight_normalization (root : PNode) (fuel : Nat)
    (hroot : nodeAlloc root = 100)
    (hsums : allSums100 root)
    (hchain : ∀ p ∈ leavesWithChain root [],
      ChainOk root p.2 (nodeParent p.1) ∧ p.2.length ≤ fuel) :
    ((extractAssets root).map (loopWeight root fuel)).sum = 1 := by
  rw [extractAssets_eq_leaves root [], List.map_map]
  have hcongr : (leavesWithChain root []).map (loopWeight root fuel ∘ Prod.fst)
      = (leavesWithChain root []).map (fun p => nodeAlloc p.1 / 100 * prodAllocs p.2) := by
    apply List.map_congr_left
    intro p hp
    obtain ⟨hok, hfl⟩ := hchain p hp
    show loopWeight root fuel p.1 = _
    unfold loopWeight
    rw [chainWeight_resolves root p.2 (nodeParent p.1) fuel _ hok hfl]
  rw [hcongr, leavesWithChain_sum root [] hsums, hroot]
  norm_num [prodAllocs]

/-- A concrete valid two-level tree: root (100) with an asset class `A`
(60, one leaf at 100) and a direct leaf `b` (40). -/
def validTree : PNode :=
  .cls "root" "Root" 100 (
    .cons (.cls "A" "ClsA" 60
      (.cons (.asset "a1" "A1" 100 [0] (some "A")) .nil) (some "root")) (
    .cons (.asset "b" "B" 40 [0] (some "root")) .nil)) none

/-- C2, witness: the weight-normalization theorem at the concrete tree
`validTree` with fuel `5`. -/
theorem weight_normalization_witness :
    nodeAlloc validTree = 100 ∧ allSums100 validTree ∧
    ((extractAssets validTree).map (loopWeight validTree 5)).sum = 1 := by
  refine ⟨rfl, ?_, ?_⟩
  · show childAllocSum _ = 100 ∧ _
    norm_num [childAllocSum, allSums100, allSums100List, nodeAlloc]
  · apply weight_normalization validTree 5 rfl
    · show childAllocSum _ = 100 ∧ _
      norm_num [childAllocSum, allSums100, allSums100List, nodeAlloc]
    · intro p hp
      simp only [validTree, leavesWithChain, leavesWithChainList, List.mem_append,
        List.mem_singleton, List.append_nil, List.mem_cons, List.not_mem_nil, or_false] at hp
      rcases hp with hp | hp <;>
        (subst hp
         refine ⟨?_, by simp⟩
         simp [validTree, ChainOk, nodeParent, findNodeById, findInList, nodeId, nodeAlloc])

/-! ## C1 — Euler risk-contribution consistency: generic sum lemmas -/

/-- A list sum as a `Finset.range` sum over `getD` accesses. -/
theorem listsum_range (xs : List ℚ) :
    xs.sum = ∑ i ∈ Finset.range xs.length, xs.getD i 0 := by
  induction xs with
  | nil => simp
  | cons x xs ih =>
    rw [List.sum_cons, ih]
    rw [show (x :: xs).length = xs.length + 1 from rfl,
      Finset.sum_range_succ' (fun i => (x :: xs).getD i 0) xs.length]
    simp [List.getD]
    ring

/-- `getD` through `map`, inside the length. -/
theorem getD_map_lt (f : ℚ → ℚ) (xs : List ℚ) (i : Nat) (h : i < xs.length) :
    (xs.map f).getD i 0 = f (xs.getD i 0) := by
  rw [List.getD_eq_getElem _ _ (by simpa using h), List.getD_eq_getElem _ _ h]
  simp

/-- A zipped-map sum as a `Finset.range` sum, for equal lengths. -/
theorem zipsum_range (g : ℚ → ℚ → ℚ) :
    ∀ (xs ys : List ℚ), xs.length = ys.length →
      ((xs.zip ys).map (fun p => g p.1 p.2)).sum =
        ∑ i ∈ Finset.range xs.length, g (xs.getD i 0) (ys.getD i 0) := by
  intro xs
  induction xs with
  | nil => intro ys h; simp
  | cons x xs ih =>
    intro ys h
    cases ys with
    | nil => simp at h
    | cons y ys =>
      have hlen : xs.length = ys.length := by simpa using h
      rw [show ((x :: xs).zip (y :: ys)) = (x, y) :: xs.zip ys from rfl]
      rw [List.map_cons, List.sum_cons, ih ys hlen]
      rw [show (x :: xs).length = xs.length + 1 from rfl,
        Finset.sum_range_succ' (fun i => g ((x :: xs).getD i 0) ((y :: ys).getD i 0)) xs.length]
      simp [List.getD]
      ring

/-- Dividing each list entry by a constant divides the sum. -/
theorem listsum_map_div (as : List PNode) (f : PNode → ℚ) (c : ℚ) :
    (as.map (fun a => f a / c)).sum = (as.map f).sum / c := by
  induction as with
  | nil => simp
  | cons a as ih => simp [ih, add_div]

/-- Entrywise difference of two per-asset quantities sums to the difference
of the sums. -/
theorem listsum_map_sub (as : List PNode) (f g : PNode → ℚ) :
    (as.map (fun a => f a - g a)).sum = (as.map f).sum - (as.map g).sum := by
  induction as with
  | nil => simp
  | cons a as ih => simp [ih]; ring

/-- Exchange of a list sum with a `Finset.range` sum. -/
theorem listsum_finsetsum_swap (as : List PNode) (n : Nat) (f : PNode → Nat → ℚ) :
    (as.map (fun a => ∑ i ∈ Finset.range n, f a i)).sum =
      ∑ i ∈ Finset.range n, (as.map (fun a => f a i)).sum := by
  induction as with
  | nil => simp
  | cons a as ih =>
    rw [List.map_cons, List.sum_cons, ih, ← Finset.sum_add_distrib]
    simp

/-- Multiplying each list entry by a constant multiplies the sum. -/
theorem listsum_map_mul_right (as : List PNode) (f : PNode → ℚ) (c : ℚ) :
    (as.map (fun a => f a * c)).sum = (as.map f).sum * c := by
  induction as with
  | nil => simp
  | cons a as ih => simp [ih]; ring

/-- The heart of the Euler identity: when every asset series has the common
positive length `n` and the loop weights sum to `1`, the weighted sum of the
covariances of the asset series with the computed portfolio series equals
the sample variance of that portfolio series. -/
theorem weighted_cov_eq_var (root : PNode) (fuel : Nat) (as : List PNode)
    (n : Nat) (hn : n ≠ 0)
    (hlen : ∀ a ∈ as, (returnsOf a).length = n)
    (hw : (as.map (loopWeight root fuel)).sum = 1) :
    (as.map (fun a => loopWeight root fuel a *
        calculateCovariance (returnsOf a) ((List.range n).map (periodReturn root fuel as)))).sum
      = sampleVar ((List.range n).map (periodReturn root fuel as)) := by
  set w := loopWeight root fuel with hwdef
  set P := (List.range n).map (periodReturn root fuel as) with hPdef
  have hPlen : P.length = n := by simp [hPdef]
  have htW : ∀ i, i < n → totalWeightAt root fuel as i = 1 := by
    intro i hi
    unfold totalWeightAt
    rw [List.map_congr_left (l := as)
      (g := fun a => w a)
      (fun a ha => by rw [if_pos (by rw [hlen a ha]; exact hi)])]
    exact hw
  have hPi : ∀ i, i < n →
      P.getD i 0 = (as.map (fun a => w a * (returnsOf a).getD i 0)).sum := by
    intro i hi
    rw [hPdef, getD_range_map _ _ _ hi]
    unfold periodReturn
    rw [htW i hi, if_pos (by norm_num), div_one]
    unfold weightedAt
    apply congrArg
    apply List.map_congr_left
    intro a ha
    rw [if_pos (by rw [hlen a ha]; exact hi)]
  have hPbar : listMean P = (∑ i ∈ Finset.range n, P.getD i 0) / n := by
    unfold listMean
    rw [listsum_range P, hPlen]
  have hmean : ∀ a ∈ as, listMean (returnsOf a) =
      (∑ j ∈ Finset.range n, (returnsOf a).getD j 0) / n := by
    intro a ha
    unfold listMean
    rw [listsum_range (returnsOf a), hlen a ha]
  have hcov : ∀ a ∈ as, calculateCovariance (returnsOf a) P =
      (∑ i ∈ Finset.range n,
        ((returnsOf a).getD i 0 - listMean (returnsOf a)) * (P.getD i 0 - listMean P)) /
        ((n : ℚ) - 1) := by
    intro a ha
    unfold calculateCovariance
    rw [if_neg (by
      push_neg
      refine ⟨by rw [hlen a ha]; exact hn, by rw [hPlen]; exact hn, ?_⟩
      rw [hlen a ha, hPlen])]
    rw [zipsum_range (fun x y => (x - listMean (returnsOf a)) * (y - listMean P))
      (returnsOf a) P (by rw [hlen a ha, hPlen]), hlen a ha]
  -- the inner column identity
  have hinner : ∀ i, i < n →
      (as.map (fun a => w a * ((returnsOf a).getD i 0 - listMean (returnsOf a)))).sum
        = P.getD i 0 - listMean P := by
    intro i hi
    have hsplit : (as.map (fun a => w a * ((returnsOf a).getD i 0 - listMean (returnsOf a)))).sum
        = (as.map (fun a => w a * (returnsOf a).getD i 0)).sum
          - (as.map (fun a => w a * listMean (returnsOf a))).sum := by
      rw [← listsum_map_sub]
      apply congrArg
      apply List.map_congr_left
      intro a _
      ring
    rw [hsplit, ← hPi i hi]
    have hmeans : (as.map (fun a => w a * listMean (returnsOf a))).sum = listMean P := by
      have h1 : (as.map (fun a => w a * listMean (returnsOf a))).sum
          = (as.map (fun a => (∑ j ∈ Finset.range n, w a * (returnsOf a).getD j 0) / n)).sum := by
        apply congrArg
        apply List.map_congr_left
        intro a ha
        rw [hmean a ha, ← Finset.mul_sum]
        ring
      rw [h1, listsum_map_div, listsum_finsetsum_swap, hPbar]
      apply congrArg (fun x => x / (n : ℚ))
      apply Finset.sum_congr rfl
      intro j hj
      rw [hPi j (Finset.mem_range.mp hj)]
    rw [hmeans]
  -- main computation
  have hmain : (as.map (fun a => w a * calculateCovariance (returnsOf a) P)).sum
      = (∑ i ∈ Finset.range n, (P.getD i 0 - listMean P) * (P.getD i 0 - listMean P)) /
        ((n : ℚ) - 1) := by
    have h1 : (as.map (fun a => w a * calculateCovariance (returnsOf a) P)).sum
        = (as.map (fun a =>
            (∑ i ∈ Finset.range n,
              w a * (((returnsOf a).getD i 0 - listMean (returnsOf a)) * (P.getD i 0 - listMean P))) /
            ((n : ℚ) - 1))).sum := by
      apply congrArg
      apply List.map_congr_left
      intro a ha
      rw [hcov a ha, ← Finset.mul_sum]
      ring
    rw [h1, listsum_map_div, listsum_finsetsum_swap]
    apply congrArg (fun x => x / ((n : ℚ) - 1))
    apply Finset.sum_congr rfl
    intro i hi
    have hi' : i < n := Finset.mem_range.mp hi
    have h2 : (as.map (fun a =>
        w a * (((returnsOf a).getD i 0 - listMean (returnsOf a)) * (P.getD i 0 - listMean P)))).sum
        = (as.map (fun a =>
            (w a * ((returnsOf a).getD i 0 - listMean (returnsOf a))) * (P.getD i 0 - listMean P))).sum := by
      apply congrArg
      apply List.map_congr_left
      intro a _
      ring
    rw [h2, listsum_map_mul_right, hinner i hi']
  rw [hmain]
  unfold sampleVar
  rw [hPlen, listsum_range (P.map (fun x => (x - listMean P) ^ 2))]
  rw [List.length_map, hPlen]
  apply congrArg (fun x => x / ((n : ℚ) - 1))
  apply Finset.sum_congr rfl
  intro i hi
  rw [getD_map_lt _ _ _ (by rw [hPlen]; exact Finset.mem_range.mp hi)]
  ring

/-- The sample variance of the empty series is `0` (so a positive standard
deviation forces a nonempty portfolio series). -/
theorem sampleVar_nil : sampleVar ([] : List ℚ) = 0 := by
  simp [sampleVar]

/-- The percentage-filling pass leaves every `contribution` unchanged. -/
theorem rcFillPercentages_contribution (l : List RiskContribution) :
    (rcFillPercentages l).map (fun c => c.contribution) =
      l.map (fun c => c.contribution) := by
  unfold rcFillPercentages
  by_cases h : 0 < (l.map (fun c => c.contribution)).sum
  · rw [if_pos h, List.map_map]
    rfl
  · rw [if_neg h]

/-- C1: Euler risk-contribution consistency.  For every portfolio tree whose
leaf absolute weights (as the loop computes them) sum to `1` and whose leaf
series share one length, with the portfolio standard deviation positive
(`IsVol` fixes it as the exact square root of the sample variance of the
portfolio series — the series `calculateRiskContributions` itself builds,
which is the same weight-normalized combination `calculatePortfolioReturns`
uses), the contributions returned by `calculateRiskContributions` sum to
exactly the portfolio volatility — in particular within the claimed 1%
relative tolerance. -/
theorem euler_risk_contribution_sum (stdev : List ℚ → ℚ) (pd : PortfolioData)
    (fuel : Nat) (n : Nat)
    (hlen : ∀ a ∈ extractAssets pd.wholePortfolio, (returnsOf a).length = n)
    (hw : ((extractAssets pd.wholePortfolio).map (loopWeight pd.wholePortfolio fuel)).sum = 1)
    (hvol : IsVol (calculatePortfolioReturns pd fuel)
      (stdev (calculatePortfolioReturns pd fuel)))
    (hv : 0 < stdev (calculatePortfolioReturns pd fuel)) :
    ((calculateRiskContributions stdev pd fuel).map (fun c => c.contribution)).sum
        = stdev (calculatePortfolioReturns pd fuel) ∧
    |((calculateRiskContributions stdev pd fuel).map (fun c => c.contribution)).sum
        - stdev (calculatePortfolioReturns pd fuel)|
      ≤ stdev (calculatePortfolioReturns pd fuel) / 100 := by
  cases hext : extractAssets pd.wholePortfolio with
  | nil =>
    rw [hext] at hw
    simp at hw
  | cons a0 rest =>
    have ha0len : (returnsOf a0).length = n :=
      hlen a0 (by rw [hext]; exact List.mem_cons_self a0 rest)
    have hn : n ≠ 0 := by
      intro hn0
      have hPnil : calculatePortfolioReturns pd fuel = [] := by
        unfold calculatePortfolioReturns
        rw [hext]
        show (if (returnsOf a0).length = 0 then []
          else portfolioReturnsAux pd.wholePortfolio fuel a0 (a0 :: rest)) = []
        rw [if_pos (by rw [ha0len, hn0])]
      rw [hPnil] at hvol hv
      have : stdev ([] : List ℚ) = 0 := by
        have h2 := hvol.2
        rw [sampleVar_nil] at h2
        exact (pow_eq_zero_iff (by norm_num)).mp h2
      rw [this] at hv
      exact lt_irrefl 0 hv
    have hlen0 : (returnsOf a0).length ≠ 0 := by rw [ha0len]; exact hn
    have hP : calculatePortfolioReturns pd fuel =
        portfolioReturnsAux pd.wholePortfolio fuel a0 (a0 :: rest) := by
      unfold calculatePortfolioReturns
      rw [hext]
      show (if (returnsOf a0).length = 0 then []
        else portfolioReturnsAux pd.wholePortfolio fuel a0 (a0 :: rest)) = _
      rw [if_neg hlen0]
    have hPn : portfolioReturnsAux pd.wholePortfolio fuel a0 (a0 :: rest) =
        (List.range n).map (periodReturn pd.wholePortfolio fuel (a0 :: rest)) := by
      unfold portfolioReturnsAux
      rw [ha0len]
    have hvne : stdev (portfolioReturnsAux pd.wholePortfolio fuel a0 (a0 :: rest)) ≠ 0 := by
      rw [← hP]
      exact ne_of_gt hv
    have hconts : ((calculateRiskContributions stdev pd fuel).map
        (fun c => c.contribution)).sum =
        ((a0 :: rest).map (fun a => loopWeight pd.wholePortfolio fuel a *
          calculateCovariance (returnsOf a)
            (portfolioReturnsAux pd.wholePortfolio fuel a0 (a0 :: rest)) /
          stdev (portfolioReturnsAux pd.wholePortfolio fuel a0 (a0 :: rest)))).sum := by
      unfold calculateRiskContributions
      rw [hext]
      show ((if (returnsOf a0).length = 0 then ([] : List RiskContribution)
        else if stdev (portfolioReturnsAux pd.wholePortfolio fuel a0 (a0 :: rest)) = 0
          then []
        else rcFillPercentages ((a0 :: rest).map
          (rcEntry stdev pd.wholePortfolio fuel
            (portfolioReturnsAux pd.wholePortfolio fuel a0 (a0 :: rest))))).map
        (fun c => c.contribution)).sum = _
      rw [if_neg hlen0, if_neg hvne, rcFillPercentages_contribution, List.map_map]
      rfl
    have hkey := weighted_cov_eq_var pd.wholePortfolio fuel (a0 :: rest) n hn
      (by intro a ha; exact hlen a (by rw [hext]; exact ha))
      (by rw [← hext]; exact hw)
    have hvar : sampleVar ((List.range n).map (periodReturn pd.wholePortfolio fuel (a0 :: rest)))
        = stdev (calculatePortfolioReturns pd fuel) ^ 2 := by
      rw [← hPn, ← hP]
      exact hvol.2.symm
    have hsum : ((calculateRiskContributions stdev pd fuel).map
        (fun c => c.contribution)).sum = stdev (calculatePortfolioReturns pd fuel) := by
      rw [hconts, listsum_map_div]
      rw [show (fun a => loopWeight pd.wholePortfolio fuel a *
          calculateCovariance (returnsOf a)
            (portfolioReturnsAux pd.wholePortfolio fuel a0 (a0 :: rest))) =
        (fun a => loopWeight pd.wholePortfolio fuel a *
          calculateCovariance (returnsOf a)
            ((List.range n).map (periodReturn pd.wholePortfolio fuel (a0 :: rest)))) from by
          rw [hPn]]
      rw [hkey, hvar, hP, hPn, sq]
      exact mul_div_cancel_right₀ _ (by rw [← hPn, ← hP]; exact ne_of_gt hv)
    refine ⟨hsum, ?_⟩
    rw [hsum]
    simp
    positivity

/-- A two-leaf portfolio engineered so the portfolio series is `[1, 2, 3]`,
whose sample variance is exactly `1` — so the standard deviation is the
rational `1` and the `jStat.stdev` oracle can be the constant `1`. -/
def eulerTree : PNode :=
  .cls "root" "Root" 100 (
    .cons (.asset "u" "U" 50 [0, 2, 4] (some "root")) (
    .cons (.asset "w" "W" 50 [2, 2, 2] (some "root")) .nil)) none

/-- Snapshot around `eulerTree`. -/
def eulerPD : PortfolioData := ⟨eulerTree, fun _ => []⟩

/-- Standard-deviation oracle for `eulerPD`: the portfolio series `[1,2,3]`
has sample variance `1`, so the constant `1` is the exact square root on
the one series whose volatility the theorems constrain. -/
def oneStdev : List ℚ → ℚ := fun _ => 1

/-- C1, witness: the Euler identity at `eulerPD` — all hypotheses hold and
the contributions sum to the portfolio volatility `1`. -/
theorem euler_risk_contribution_sum_witness :
    (∀ a ∈ extractAssets eulerPD.wholePortfolio, (returnsOf a).length = 3) ∧
    ((extractAssets eulerPD.wholePortfolio).map (loopWeight eulerPD.wholePortfolio 5)).sum = 1 ∧
    IsVol (calculatePortfolioReturns eulerPD 5) (oneStdev (calculatePortfolioReturns eulerPD 5)) ∧
    0 < oneStdev (calculatePortfolioReturns eulerPD 5) ∧
    ((calculateRiskContributions oneStdev eulerPD 5).map (fun c => c.contribution)).sum
      = oneStdev (calculatePortfolioReturns eulerPD 5) := by
  have hP : calculatePortfolioReturns eulerPD 5 = [1, 2, 3] := by
    norm_num [calculatePortfolioReturns, eulerPD, eulerTree, extractAssets,
      extractFromList, portfolioReturnsAux, periodReturn, weightedAt, totalWeightAt,
      loopWeight, chainWeight, findNodeById, findInList, nodeAlloc, nodeParent,
      returnsOf, nodeId, List.range, List.range.loop]
  have hlen : ∀ a ∈ extractAssets eulerPD.wholePortfolio, (returnsOf a).length = 3 := by
    intro a ha
    simp [eulerPD, eulerTree, extractAssets, extractFromList] at ha
    rcases ha with ha | ha <;> (subst ha; rfl)
  have hw : ((extractAssets eulerPD.wholePortfolio).map
      (loopWeight eulerPD.wholePortfolio 5)).sum = 1 := by
    norm_num [eulerPD, eulerTree, extractAssets, extractFromList, loopWeight,
      chainWeight, findNodeById, findInList, nodeAlloc, nodeParent, nodeId]
  have hvol : IsVol (calculatePortfolioReturns eulerPD 5)
      (oneStdev (calculatePortfolioReturns eulerPD 5)) := by
    rw [hP]
    constructor
    · norm_num [oneStdev]
    · norm_num [oneStdev, sampleVar, listMean]
  have hv : 0 < oneStdev (calculatePortfolioReturns eulerPD 5) := by
    norm_num [oneStdev]
  exact ⟨hlen, hw, hvol, hv,
    (euler_risk_contribution_sum oneStdev eulerPD 5 3 hlen hw hvol hv).1⟩

/-! ## C9 — numeric consistency of the worker's calculation-step trace -/

/-- `getD` through `map` at an in-range index, with arbitrary defaults. -/
theorem getD_map_of_lt {α β : Type} (f : α → β) (xs : List α) (k : Nat)
    (d : β) (e : α) (h : k < xs.length) :
    (xs.map f).getD k d = f (xs.getD k e) := by
  rw [List.getD_eq_getElem _ _ (by simpa using h), List.getD_eq_getElem _ _ h]
  simp

/-- The step-trace percentage pass preserves the length. -/
theorem stepsFillPercentages_length (l : List CalculationStep) :
    (stepsFillPercentages l).length = l.length := by
  unfold stepsFillPercentages
  by_cases h : 0 < (l.map (fun s => s.contribution)).sum
  · rw [if_pos h, List.length_map]
  · rw [if_neg h]

/-- The step-trace percentage pass preserves every `contribution`. -/
theorem stepsFillPercentages_contribution (l : List CalculationStep) :
    (stepsFillPercentages l).map (fun s => s.contribution) =
      l.map (fun s => s.contribution) := by
  unfold stepsFillPercentages
  by_cases h : 0 < (l.map (fun s => s.contribution)).sum
  · rw [if_pos h, List.map_map]
    rfl
  · rw [if_neg h]

/-- Entrywise description of the step-trace percentage pass: all fields
except `contributionPercentage` are preserved, and when the total is
positive the percentage becomes `contribution / total * 100`. -/
theorem stepsFillPercentages_getD (l : List CalculationStep) (k : Nat)
    (h : k < l.length) :
    ((stepsFillPercentages l).getD k default).assetId = (l.getD k default).assetId ∧
    ((stepsFillPercentages l).getD k default).weight = (l.getD k default).weight ∧
    ((stepsFillPercentages l).getD k default).marginalContribution
      = (l.getD k default).marginalContribution ∧
    ((stepsFillPercentages l).getD k default).contribution
      = (l.getD k default).contribution ∧
    ((stepsFillPercentages l).getD k default).portfolioVolatility
      = (l.getD k default).portfolioVolatility ∧
    (0 < (l.map (fun s => s.contribution)).sum →
      ((stepsFillPercentages l).getD k default).contributionPercentage =
        (l.getD k default).contribution / (l.map (fun s => s.contribution)).sum * 100) := by
  unfold stepsFillPercentages
  by_cases hpos : 0 < (l.map (fun s => s.contribution)).sum
  · rw [if_pos hpos]
    rw [getD_map_of_lt _ l k default default h]
    exact ⟨rfl, rfl, rfl, rfl, rfl, fun _ => rfl⟩
  · rw [if_neg hpos]
    exact ⟨rfl, rfl, rfl, rfl, rfl, fun hc => absurd hc hpos⟩

/-- The contribution-list percentage pass preserves the length. -/
theorem rcFillPercentages_length (l : List RiskContribution) :
    (rcFillPercentages l).length = l.length := by
  unfold rcFillPercentages
  by_cases h : 0 < (l.map (fun c => c.contribution)).sum
  · rw [if_pos h, List.length_map]
  · rw [if_neg h]

/-- Entrywise description of the contribution-list percentage pass:
`id` and `contribution` are preserved. -/
theorem rcFillPercentages_getD (l : List RiskContribution) (k : Nat)
    (h : k < l.length) :
    ((rcFillPercentages l).getD k default).id = (l.getD k default).id ∧
    ((rcFillPercentages l).getD k default).contribution
      = (l.getD k default).contribution := by
  unfold rcFillPercentages
  by_cases hpos : 0 < (l.map (fun c => c.contribution)).sum
  · rw [if_pos hpos]
    rw [getD_map_of_lt _ l k default default h]
    exact ⟨rfl, rfl⟩
  · rw [if_neg hpos]
    exact ⟨rfl, rfl⟩

/-- C9, amended: whenever the worker's `calculateRiskMetrics` succeeds
*and the portfolio volatility is positive* (when it is exactly `0` — a
constant portfolio series — `calculateRiskContributions` returns `[]`
while the step trace is still emitted, so the entrywise agreement fails;
see the zero-volatility counterexample), the published step trace is
numerically consistent with the aggregates: every step's
`portfolioVolatility` equals the aggregate `portfolioVolatility`; every
step's `contribution` is its `weight × marginalContribution` with
`marginalContribution` the covariance of that leaf's series with the
portfolio series over the portfolio volatility; the step's `contribution`
and `assetId` agree entrywise with the `riskContributions` output of
`calculateRiskContributions`; and when the total contribution is positive
each step's `contributionPercentage` is `contribution / total × 100`. -/
theorem step_trace_consistency (stdev : List ℚ → ℚ) (pd : PortfolioData)
    (fuel : Nat) (benchmark : Benchmark) (res : RiskResults)
    (hok : calculateRiskMetrics stdev pd fuel benchmark = Except.ok res)
    (hv : 0 < stdev (calculatePortfolioReturns pd fuel)) :
    res.calculationSteps.length = (extractAssets pd.wholePortfolio).length ∧
    res.riskContributions.length = (extractAssets pd.wholePortfolio).length ∧
    ∀ k, k < res.calculationSteps.length →
      (res.calculationSteps.getD k default).portfolioVolatility
        = res.portfolioVolatility ∧
      (res.calculationSteps.getD k default).contribution =
        (res.calculationSteps.getD k default).weight *
          (res.calculationSteps.getD k default).marginalContribution ∧
      (res.calculationSteps.getD k default).marginalContribution =
        calculateCovariance
          (returnsOf ((extractAssets pd.wholePortfolio).getD k default))
          (calculatePortfolioReturns pd fuel) / res.portfolioVolatility ∧
      (res.calculationSteps.getD k default).weight =
        loopWeight pd.wholePortfolio fuel
          ((extractAssets pd.wholePortfolio).getD k default) ∧
      (res.riskContributions.getD k default).id
        = (res.calculationSteps.getD k default).assetId ∧
      (res.riskContributions.getD k default).contribution
        = (res.calculationSteps.getD k default).contribution ∧
      (0 < (res.calculationSteps.map (fun s => s.contribution)).sum →
        (res.calculationSteps.getD k default).contributionPercentage =
          (res.calculationSteps.getD k default).contribution /
            (res.calculationSteps.map (fun s => s.contribution)).sum * 100) := by
  cases hext : extractAssets pd.wholePortfolio with
  | nil =>
    unfold calculateRiskMetrics at hok
    rw [hext] at hok
    cases hok
  | cons a0 rest =>
    unfold calculateRiskMetrics at hok
    rw [hext] at hok
    by_cases hlen0 : (returnsOf a0).length = 0
    · have hok2 : (if (returnsOf a0).length = 0 then
          (Except.error "No asset returns data available" : Except String RiskResults)
        else _) = Except.ok res := hok
      rw [if_pos hlen0] at hok2
      cases hok2
    · have hok2 : (if (returnsOf a0).length = 0 then
          (Except.error "No asset returns data available" : Except String RiskResults)
        else Except.ok
          { portfolioVolatility :=
              stdev (portfolioReturnsAux pd.wholePortfolio fuel a0 (a0 :: rest))
            benchmarkVolatility := stdev (pd.benchmarks benchmark)
            maxDrawdown := calculateMaxDrawdown
              (portfolioReturnsAux pd.wholePortfolio fuel a0 (a0 :: rest))
            valueAtRisk := calculateValueAtRisk
              (portfolioReturnsAux pd.wholePortfolio fuel a0 (a0 :: rest)) (95 / 100)
            trackingError := calculateTrackingError stdev
              (portfolioReturnsAux pd.wholePortfolio fuel a0 (a0 :: rest))
              (pd.benchmarks benchmark)
            beta := calculateBeta
              (portfolioReturnsAux pd.wholePortfolio fuel a0 (a0 :: rest))
              (pd.benchmarks benchmark)
            alpha := calculateAlpha
              (portfolioReturnsAux pd.wholePortfolio fuel a0 (a0 :: rest))
              (pd.benchmarks benchmark) (1 / 1000)
            sharpeRatio := calculateSharpeRatio stdev
              (portfolioReturnsAux pd.wholePortfolio fuel a0 (a0 :: rest)) (1 / 1000)
            informationRatio := calculateInformationRatio stdev
              (portfolioReturnsAux pd.wholePortfolio fuel a0 (a0 :: rest))
              (pd.benchmarks benchmark)
            riskContributions := calculateRiskContributions stdev pd fuel
            calculationSteps := stepsFillPercentages ((a0 :: rest).map
              (calcStep stdev pd.wholePortfolio fuel
                (portfolioReturnsAux pd.wholePortfolio fuel a0 (a0 :: rest)))) })
          = Except.ok res := hok
      rw [if_neg hlen0] at hok2
      have hres := Except.ok.inj hok2
      have hcs : res.calculationSteps = stepsFillPercentages ((a0 :: rest).map
          (calcStep stdev pd.wholePortfolio fuel
            (portfolioReturnsAux pd.wholePortfolio fuel a0 (a0 :: rest)))) := by
        rw [← hres]
      have hpvol : res.portfolioVolatility =
          stdev (portfolioReturnsAux pd.wholePortfolio fuel a0 (a0 :: rest)) := by
        rw [← hres]
      have hrcs : res.riskContributions = calculateRiskContributions stdev pd fuel := by
        rw [← hres]
      have hP : calculatePortfolioReturns pd fuel =
          portfolioReturnsAux pd.wholePortfolio fuel a0 (a0 :: rest) := by
        unfold calculatePortfolioReturns
        rw [hext]
        show (if (returnsOf a0).length = 0 then []
          else portfolioReturnsAux pd.wholePortfolio fuel a0 (a0 :: rest)) = _
        rw [if_neg hlen0]
      have hvP : stdev (portfolioReturnsAux pd.wholePortfolio fuel a0 (a0 :: rest)) ≠ 0 := by
        rw [← hP]
        exact ne_of_gt hv
      have hRC : calculateRiskContributions stdev pd fuel =
          rcFillPercentages ((a0 :: rest).map
            (rcEntry stdev pd.wholePortfolio fuel
              (portfolioReturnsAux pd.wholePortfolio fuel a0 (a0 :: rest)))) := by
        unfold calculateRiskContributions
        rw [hext]
        show (if (returnsOf a0).length = 0 then ([] : List RiskContribution)
          else if stdev (portfolioReturnsAux pd.wholePortfolio fuel a0 (a0 :: rest)) = 0
            then []
          else rcFillPercentages ((a0 :: rest).map
            (rcEntry stdev pd.wholePortfolio fuel
              (portfolioReturnsAux pd.wholePortfolio fuel a0 (a0 :: rest))))) = _
        rw [if_neg hlen0, if_neg hvP]
      refine ⟨?_, ?_, ?_⟩
      · rw [hcs, stepsFillPercentages_length, List.length_map]
      · rw [hrcs, hRC, rcFillPercentages_length, List.length_map]
      · intro k hk
        have hka : k < (a0 :: rest).length := by
          rw [hcs, stepsFillPercentages_length, List.length_map] at hk
          exact hk
        have hk' : k < ((a0 :: rest).map
            (calcStep stdev pd.wholePortfolio fuel
              (portfolioReturnsAux pd.wholePortfolio fuel a0 (a0 :: rest)))).length := by
          rw [List.length_map]
          exact hka
        obtain ⟨hid, hwt, hmc, hcontr, hpv, hpct⟩ := stepsFillPercentages_getD
          ((a0 :: rest).map (calcStep stdev pd.wholePortfolio fuel
            (portfolioReturnsAux pd.wholePortfolio fuel a0 (a0 :: rest)))) k hk'
        have hstep : ((a0 :: rest).map (calcStep stdev pd.wholePortfolio fuel
            (portfolioReturnsAux pd.wholePortfolio fuel a0 (a0 :: rest)))).getD k default
            = calcStep stdev pd.wholePortfolio fuel
              (portfolioReturnsAux pd.wholePortfolio fuel a0 (a0 :: rest))
              ((a0 :: rest).getD k default) :=
          getD_map_of_lt _ (a0 :: rest) k default default hka
        have hk'' : k < ((a0 :: rest).map
            (rcEntry stdev pd.wholePortfolio fuel
              (portfolioReturnsAux pd.wholePortfolio fuel a0 (a0 :: rest)))).length := by
          rw [List.length_map]
          exact hka
        obtain ⟨hrid, hrcontr⟩ := rcFillPercentages_getD
          ((a0 :: rest).map (rcEntry stdev pd.wholePortfolio fuel
            (portfolioReturnsAux pd.wholePortfolio fuel a0 (a0 :: rest)))) k hk''
        have hrc : ((a0 :: rest).map (rcEntry stdev pd.wholePortfolio fuel
            (portfolioReturnsAux pd.wholePortfolio fuel a0 (a0 :: rest)))).getD k default
            = rcEntry stdev pd.wholePortfolio fuel
              (portfolioReturnsAux pd.wholePortfolio fuel a0 (a0 :: rest))
              ((a0 :: rest).getD k default) :=
          getD_map_of_lt _ (a0 :: rest) k default default hka
        refine ⟨?_, ?_, ?_, ?_, ?_, ?_, ?_⟩
        · rw [hcs, hpv, hstep, hpvol]
          rfl
        · rw [hcs, hcontr, hwt, hmc, hstep]
          rfl
        · rw [hcs, hmc, hstep, hpvol, hP]
          rfl
        · rw [hcs, hwt, hstep]
          rfl
        · rw [hcs, hrcs, hRC, hrid, hrc, hid, hstep]
          rfl
        · rw [hcs, hrcs, hRC, hrcontr, hrc, hcontr, hstep]
          show _ * _ / _ = _ * (_ / _)
          rw [mul_div_assoc]
        · intro hpos
          rw [hcs, stepsFillPercentages_contribution] at hpos
          have := hpct hpos
          rw [hcs, this, hcontr, stepsFillPercentages_contribution]

instance : Inhabited RiskResults := ⟨⟨0, 0, 0, none, 0, 0, 0, 0, 0, [], []⟩⟩

/-- The worker result on the concrete portfolio `eulerPD` (defined by
projecting the successful computation). -/
def eulerRiskResults : RiskResults :=
  match calculateRiskMetrics oneStdev eulerPD 5 .market with
  | .ok r => r
  | .error _ => default

/-- C9, witness: the step-trace consistency theorem applied to the concrete
portfolio `eulerPD`, on which `calculateRiskMetrics` succeeds. -/
theorem step_trace_consistency_witness :
    calculateRiskMetrics oneStdev eulerPD 5 .market = Except.ok eulerRiskResults ∧
    0 < oneStdev (calculatePortfolioReturns eulerPD 5) ∧
    eulerRiskResults.calculationSteps.length
      = (extractAssets eulerPD.wholePortfolio).length :=
  ⟨rfl, by norm_num [oneStdev],
    (step_trace_consistency oneStdev eulerPD 5 .market eulerRiskResults rfl
      (by norm_num [oneStdev])).1⟩

/-- A one-leaf portfolio with a constant return series: its sample standard
deviation is exactly `0`, even in floating point. -/
def constAsset : PNode := .asset "c" "C" 100 [1/100, 1/100] (some "root")

/-- Tree around `constAsset`. -/
def constTree : PNode := .cls "root" "Root" 100 (.cons constAsset .nil) none

/-- Snapshot around `constTree`. -/
def constPD : PortfolioData := ⟨constTree, fun _ => []⟩

/-- The exact `jStat.stdev` oracle for `constPD`: the portfolio series is
the constant `[0.01, 0.01]`, whose sample standard deviation is exactly
`0` (and so is every leaf's, being the same series). -/
def zeroStdev : List ℚ → ℚ := fun _ => 0

/-- The worker result on `constPD`. -/
def constRiskResults : RiskResults :=
  match calculateRiskMetrics zeroStdev constPD 5 .market with
  | .ok r => r
  | .error _ => default

/-- C9, counterexample: on the constant-return portfolio `constPD` the
worker *succeeds* — the claim quantifies over every portfolio on which
`calculateRiskMetrics` succeeds — with a one-entry step trace, but the
portfolio volatility is exactly `0` (witnessed by `IsVol` on the computed
portfolio series), so `calculateRiskContributions` hits its
`portfolioVol === 0` guard and returns `[]`: no entry for the step's asset
id exists, and the claimed step-versus-`riskContributions` agreement
fails. -/
theorem step_trace_consistency_cex :
    calculateRiskMetrics zeroStdev constPD 5 .market = Except.ok constRiskResults ∧
    IsVol (calculatePortfolioReturns constPD 5)
      (zeroStdev (calculatePortfolioReturns constPD 5)) ∧
    constRiskResults.calculationSteps.length = 1 ∧
    constRiskResults.riskContributions = [] ∧
    ¬ ∃ rc, rc ∈ constRiskResults.riskContributions ∧
      rc.id = (constRiskResults.calculationSteps.getD 0 default).assetId := by
  have hP : calculatePortfolioReturns constPD 5 = [1/100, 1/100] := by
    norm_num [calculatePortfolioReturns, constPD, constTree, constAsset, extractAssets,
      extractFromList, portfolioReturnsAux, periodReturn, weightedAt, totalWeightAt,
      loopWeight, chainWeight, findNodeById, findInList, nodeAlloc, nodeParent,
      returnsOf, nodeId, List.range, List.range.loop]
  have hRCempty : constRiskResults.riskContributions = [] := by
    show calculateRiskContributions zeroStdev constPD 5 = []
    unfold calculateRiskContributions
    show (if (returnsOf constAsset).length = 0 then ([] : List RiskContribution)
      else if zeroStdev (portfolioReturnsAux constPD.wholePortfolio 5 constAsset
        [constAsset]) = 0 then []
      else rcFillPercentages ([constAsset].map
        (rcEntry zeroStdev constPD.wholePortfolio 5
          (portfolioReturnsAux constPD.wholePortfolio 5 constAsset [constAsset])))) = []
    rw [if_neg (by simp [constAsset, returnsOf]),
      if_pos (show zeroStdev (portfolioReturnsAux constPD.wholePortfolio 5 constAsset
        [constAsset]) = 0 from rfl)]
  refine ⟨rfl, ?_, ?_, hRCempty, ?_⟩
  · rw [hP]
    constructor
    · norm_num [zeroStdev]
    · norm_num [zeroStdev, sampleVar, listMean]
  · show (stepsFillPercentages ([constAsset].map
      (calcStep zeroStdev constPD.wholePortfolio 5
        (portfolioReturnsAux constPD.wholePortfolio 5 constAsset [constAsset])))).length = 1
    rw [stepsFillPercentages_length, List.length_map]
    rfl
  · rw [hRCempty]
    rintro ⟨rc, hrc, _⟩
    simp at hrc

/-! ## C3 — Cholesky round-trip (`src/data/dataGenerator.ts`)

The Cholesky factorization computes square roots, so this part of the
development lives over `ℝ`, exactly as the claim asks ("exactly over a
real-number embedding").  A matrix is a function `Nat → Nat → ℝ`; the
program works on the leading `n × n` block. -/

/-- The covariance-matrix construction of `generateCorrelatedReturns`
(lines 137-149): `Σ[i][j] = ρ[i][j] · σ_i · σ_j`. -/
def covMatrixOf (corr : Nat → Nat → ℝ) (vol : Nat → ℝ) : Nat → Nat → ℝ :=
  fun i j => corr i j * vol i * vol j

/-- `choleskyDecomposition` from `src/data/dataGenerator.ts` (lines
177-200), entry by entry.  The double loop fills `L[i][j]` for `j ≤ i`
from previously computed entries; entries above the diagonal stay `0`.
`L[j][j] = √(A[j][j] − Σ_{k<j} L[j][k]²)` and, for `j < i`,
`L[i][j] = (A[i][j] − Σ_{k<j} L[i][k]·L[j][k]) / L[j][j]`. -/
noncomputable def cholEntry (A : Nat → Nat → ℝ) : Nat → Nat → ℝ
  | i, j =>
    if h1 : i < j then 0
    else if h2 : i = j then
      Real.sqrt (A j j - ∑ k ∈ (Finset.range j).attach,
        (cholEntry A j k.1) ^ 2)
    else
      (A i j - ∑ k ∈ (Finset.range j).attach,
        cholEntry A i k.1 * cholEntry A j k.1) / cholEntry A j j
  termination_by i j => (i, j)
  decreasing_by
  · subst h2
    exact Prod.Lex.right _ (Finset.mem_range.mp k.2)
  · exact Prod.Lex.right _ (Finset.mem_range.mp k.2)
  · exact Prod.Lex.left _ _ (by omega)
  · exact Prod.Lex.left _ _ (by omega)

/-- Entries above the diagonal are `0`. -/
theorem cholEntry_upper (A : Nat → Nat → ℝ) {i j : Nat} (h : i < j) :
    cholEntry A i j = 0 := by
  rw [cholEntry]
  rw [dif_pos h]

/-- The diagonal equation of the source's recursion. -/
theorem cholEntry_diag (A : Nat → Nat → ℝ) (j : Nat) :
    cholEntry A j j =
      Real.sqrt (A j j - ∑ k ∈ Finset.range j, (cholEntry A j k) ^ 2) := by
  rw [cholEntry]
  rw [dif_neg (lt_irrefl j), dif_pos rfl]
  congr 1
  rw [← Finset.sum_attach (Finset.range j) (fun k => (cholEntry A j k) ^ 2)]

/-- The sub-diagonal equation of the source's recursion. -/
theorem cholEntry_off (A : Nat → Nat → ℝ) {i j : Nat} (h : j < i) :
    cholEntry A i j =
      (A i j - ∑ k ∈ Finset.range j, cholEntry A i k * cholEntry A j k) /
        cholEntry A j j := by
  rw [cholEntry]
  rw [dif_neg (by omega : ¬ i < j), dif_neg (by omega : ¬ i = j)]
  congr 2
  rw [← Finset.sum_attach (Finset.range j)
    (fun k => cholEntry A i k * cholEntry A j k)]

/-- The diagonal "remainder" `A[j][j] − Σ_{k<j} L[j][k]²` whose square root
the algorithm takes. -/
noncomputable def cholRem (A : Nat → Nat → ℝ) (j : Nat) : ℝ :=
  A j j - ∑ k ∈ Finset.range j, (cholEntry A j k) ^ 2

/-- The leading `n × n` block is symmetric. -/
def SymmOn (A : Nat → Nat → ℝ) (n : Nat) : Prop :=
  ∀ i, i < n → ∀ j, j < n → A i j = A j i

/-- The leading `n × n` block is positive definite: the quadratic form is
positive on every vector with a nonzero coordinate below `n`. -/
def PosDefOn (A : Nat → Nat → ℝ) (n : Nat) : Prop :=
  ∀ x : Nat → ℝ, (∃ i, i < n ∧ x i ≠ 0) →
    0 < ∑ i ∈ Finset.range n, ∑ j ∈ Finset.range n, x i * x j * A i j

/-- Diagonal reconstruction up to `j`: when the remainder is nonnegative
(so the square root really squares back), row `j` dotted with itself over
`k ≤ j` gives back `A j j`. -/
theorem chol_partial_diag (A : Nat → Nat → ℝ) (j : Nat)
    (hrem : 0 ≤ cholRem A j) :
    ∑ k ∈ Finset.range (j + 1), cholEntry A j k * cholEntry A j k = A j j := by
  rw [Finset.sum_range_succ]
  have hd : cholEntry A j j * cholEntry A j j = cholRem A j := by
    rw [cholEntry_diag]
    exact Real.mul_self_sqrt hrem
  rw [hd]
  unfold cholRem
  have : ∀ k, cholEntry A j k * cholEntry A j k = (cholEntry A j k) ^ 2 := by
    intro k
    ring
  rw [Finset.sum_congr rfl (fun k _ => this k)]
  ring

/-- Sub-diagonal reconstruction up to `j`: when the pivot `L[j][j]` is
nonzero, row `i` dotted with row `j` over `k ≤ j` gives back `A i j`. -/
theorem chol_partial_off (A : Nat → Nat → ℝ) {i j : Nat} (h : j < i)
    (hd : cholEntry A j j ≠ 0) :
    ∑ k ∈ Finset.range (j + 1), cholEntry A i k * cholEntry A j k = A i j := by
  rw [Finset.sum_range_succ, cholEntry_off A h, div_mul_cancel₀ _ hd]
  ring

/-- Extending the dot product beyond `j` adds only zeros, because row `j`
is zero past the diagonal. -/
theorem chol_extend (A : Nat → Nat → ℝ) {j N : Nat} (i : Nat) (hjN : j < N) :
    ∑ k ∈ Finset.range N, cholEntry A i k * cholEntry A j k =
      ∑ k ∈ Finset.range (j + 1), cholEntry A i k * cholEntry A j k := by
  symm
  apply Finset.sum_subset (Finset.range_subset.mpr (by omega))
  intro k hk hnk
  rw [Finset.mem_range] at hk
  rw [Finset.mem_range] at hnk
  rw [cholEntry_upper A (show j < k by omega)]
  ring

/-- A positive remainder makes the diagonal entry positive. -/
theorem cholEntry_diag_pos (A : Nat → Nat → ℝ) (j : Nat)
    (hrem : 0 < cholRem A j) : 0 < cholEntry A j j := by
  rw [cholEntry_diag]
  exact Real.sqrt_pos.mpr hrem

/-- Description of the leading `(j+1) × (j+1)` block once all remainders
below `j` are known positive: every entry `A i' m` with `i', m ≤ j` is the
dot product of rows `i'` and `m` over `k < j`, except the corner
`A j j`, which additionally carries the remainder `cholRem A j`. -/
theorem chol_block_decomp (A : Nat → Nat → ℝ) (n j : Nat) (hs : SymmOn A n)
    (hjn : j < n) (hih : ∀ m, m < j → 0 < cholRem A m) :
    ∀ i' m, i' ≤ j → m ≤ j →
      A i' m = (∑ k ∈ Finset.range j, cholEntry A i' k * cholEntry A m k)
        + (if i' = j ∧ m = j then cholRem A j else 0) := by
  have hfull : ∀ i' m, m < j → m < i' →
      ∑ k ∈ Finset.range j, cholEntry A i' k * cholEntry A m k = A i' m := by
    intro i' m hmj hmi
    rw [chol_extend A i' hmj]
    exact chol_partial_off A hmi (ne_of_gt (cholEntry_diag_pos A m (hih m hmj)))
  have hdiagfull : ∀ m, m < j →
      ∑ k ∈ Finset.range j, cholEntry A m k * cholEntry A m k = A m m := by
    intro m hmj
    rw [chol_extend A m hmj]
    exact chol_partial_diag A m (le_of_lt (hih m hmj))
  have hswap : ∀ i' m, ∑ k ∈ Finset.range j, cholEntry A i' k * cholEntry A m k
      = ∑ k ∈ Finset.range j, cholEntry A m k * cholEntry A i' k := by
    intro i' m
    apply Finset.sum_congr rfl
    intro k _
    ring
  intro i' m hi' hm
  rcases eq_or_lt_of_le hi' with hi | hi
  · rcases eq_or_lt_of_le hm with hm2 | hm2
    · rw [if_pos ⟨hi, hm2⟩, hi, hm2]
      unfold cholRem
      rw [Finset.sum_congr rfl
        (fun k _ => show cholEntry A j k * cholEntry A j k = (cholEntry A j k) ^ 2 by ring)]
      ring
    · rw [if_neg (fun h => absurd h.2 (ne_of_lt hm2)), hi,
        hfull j m hm2 hm2]
      ring
  · rcases eq_or_lt_of_le hm with hm2 | hm2
    · rw [if_neg (fun h => absurd h.1 (ne_of_lt hi)), hm2, hswap,
        hfull j i' hi hi, hs i' (by omega) j hjn]
      ring
    · rw [if_neg (fun h => absurd h.1 (ne_of_lt hi))]
      rcases lt_trichotomy i' m with h3 | h3 | h3
      · rw [hswap, hfull m i' hi h3, hs i' (by omega) m (by omega)]
        ring
      · rw [h3, hdiagfull m hm2]
        ring
      · rw [hfull i' m hm2 h3]
        ring

/-- Solvability of the triangular system: when all pivots below `j` are
nonzero there is a vector `x` with `x j = 1`, vanishing above `j`, that
annihilates every column `m < j` of the partial factor. -/
theorem chol_cancel_vector (A : Nat → Nat → ℝ) (j : Nat)
    (hdiag : ∀ m, m < j → cholEntry A m m ≠ 0) :
    ∃ x : Nat → ℝ, x j = 1 ∧ (∀ i, j < i → x i = 0) ∧
      ∀ m, m < j → ∑ i ∈ Finset.range (j + 1), x i * cholEntry A i m = 0 := by
  let M : Matrix (Fin j) (Fin j) ℝ := fun r c => cholEntry A c.1 r.1
  have hMtri : M.BlockTriangular id := by
    intro r c hcr
    exact cholEntry_upper A hcr
  have hdetunit : IsUnit M.det := by
    rw [Matrix.det_of_upperTriangular hMtri, isUnit_iff_ne_zero,
      Finset.prod_ne_zero_iff]
    intro r _
    exact hdiag r.1 r.2
  let bv : Fin j → ℝ := fun r => -(cholEntry A j r.1)
  let y : Fin j → ℝ := (M⁻¹).mulVec bv
  have hMy : M.mulVec y = bv := by
    show M.mulVec ((M⁻¹).mulVec bv) = bv
    rw [Matrix.mulVec_mulVec, Matrix.mul_nonsing_inv M hdetunit, Matrix.one_mulVec]
  let x : Nat → ℝ := fun i => if h : i < j then y ⟨i, h⟩ else if i = j then 1 else 0
  have hxj : x j = 1 := by
    show (if h : j < j then y ⟨j, h⟩ else if j = j then 1 else 0) = 1
    rw [dif_neg (lt_irrefl j), if_pos rfl]
  refine ⟨x, hxj, ?_, ?_⟩
  · intro i hij
    show (if h : i < j then y ⟨i, h⟩ else if i = j then 1 else 0) = 0
    rw [dif_neg (by omega), if_neg (by omega)]
  · intro m hm
    rw [Finset.sum_range_succ]
    have hx1 : ∑ i ∈ Finset.range j, x i * cholEntry A i m
        = (M.mulVec y) ⟨m, hm⟩ := by
      rw [← Fin.sum_univ_eq_sum_range (fun i => x i * cholEntry A i m) j]
      rw [Matrix.mulVec, Matrix.dotProduct]
      apply Finset.sum_congr rfl
      intro c _
      show x c.1 * cholEntry A c.1 m = cholEntry A c.1 m * y c
      rw [show x c.1 = y c from by
        show (if h : c.1 < j then y ⟨c.1, h⟩ else if c.1 = j then 1 else 0) = y c
        rw [dif_pos c.2]]
      rw [mul_comm]
    rw [hx1, hMy, hxj]
    show -(cholEntry A j m) + 1 * cholEntry A j m = 0
    ring

/-- Positive definiteness of the leading block makes every diagonal
remainder of the recursion positive — the square roots are real and the
pivots nonzero, so the algorithm never divides by zero. -/
theorem posdef_rem_pos (A : Nat → Nat → ℝ) (n : Nat) (hs : SymmOn A n)
    (hpd : PosDefOn A n) : ∀ j, j < n → 0 < cholRem A j := by
  intro j
  induction j using Nat.strong_induction_on with
  | _ j ih =>
    intro hjn
    have hih : ∀ m, m < j → 0 < cholRem A m := fun m hm => ih m hm (by omega)
    have hdiag : ∀ m, m < j → cholEntry A m m ≠ 0 :=
      fun m hm => ne_of_gt (cholEntry_diag_pos A m (hih m hm))
    obtain ⟨x, hxj, hxgt, hcol⟩ := chol_cancel_vector A j hdiag
    have hdecomp := chol_block_decomp A n j hs hjn hih
    have hQ : ∑ i ∈ Finset.range n, ∑ m ∈ Finset.range n, x i * x m * A i m
        = ∑ i ∈ Finset.range (j + 1), ∑ m ∈ Finset.range (j + 1),
            x i * x m * A i m := by
      rw [← Finset.sum_subset (Finset.range_subset.mpr (show j + 1 ≤ n by omega))
        (fun i _ hni => Finset.sum_eq_zero (fun m _ => by
          rw [hxgt i (by rw [Finset.mem_range] at hni; omega)]
          ring))]
      apply Finset.sum_congr rfl
      intro i _
      rw [← Finset.sum_subset (Finset.range_subset.mpr (show j + 1 ≤ n by omega))
        (fun m _ hnm => by
          rw [hxgt m (by rw [Finset.mem_range] at hnm; omega)]
          ring)]
    have hA : ∑ i ∈ Finset.range (j + 1), ∑ m ∈ Finset.range (j + 1),
          x i * x m * A i m
        = (∑ i ∈ Finset.range (j + 1), ∑ m ∈ Finset.range (j + 1),
            ∑ k ∈ Finset.range j, (x i * cholEntry A i k) * (x m * cholEntry A m k))
          + (∑ i ∈ Finset.range (j + 1), ∑ m ∈ Finset.range (j + 1),
              x i * x m * (if i = j ∧ m = j then cholRem A j else 0)) := by
      rw [← Finset.sum_add_distrib]
      apply Finset.sum_congr rfl
      intro i hi
      rw [← Finset.sum_add_distrib]
      apply Finset.sum_congr rfl
      intro m hm
      rw [hdecomp i m (by rw [Finset.mem_range] at hi; omega)
        (by rw [Finset.mem_range] at hm; omega)]
      rw [mul_add]
      apply congrArg₂ (· + ·)
      · rw [Finset.mul_sum]
        apply Finset.sum_congr rfl
        intro k _
        ring
      · rfl
    have hcross : ∑ i ∈ Finset.range (j + 1), ∑ m ∈ Finset.range (j + 1),
          ∑ k ∈ Finset.range j, (x i * cholEntry A i k) * (x m * cholEntry A m k)
        = ∑ k ∈ Finset.range j,
            (∑ i ∈ Finset.range (j + 1), x i * cholEntry A i k) *
            (∑ m ∈ Finset.range (j + 1), x m * cholEntry A m k) := by
      rw [Finset.sum_congr rfl (fun i _ => Finset.sum_comm (s := Finset.range (j + 1))
        (t := Finset.range j)
        (f := fun m k => (x i * cholEntry A i k) * (x m * cholEntry A m k)))]
      rw [Finset.sum_comm]
      apply Finset.sum_congr rfl
      intro k _
      rw [Finset.sum_mul_sum]
    have hcorner : ∑ i ∈ Finset.range (j + 1), ∑ m ∈ Finset.range (j + 1),
          x i * x m * (if i = j ∧ m = j then cholRem A j else 0)
        = cholRem A j := by
      rw [Finset.sum_eq_single j
        (fun i _ hij => Finset.sum_eq_zero (fun m _ => by
          rw [if_neg (fun hc => absurd hc.1 hij)]
          ring))
        (fun hj => absurd (Finset.mem_range.mpr (by omega)) hj)]
      rw [Finset.sum_eq_single j
        (fun m _ hmj => by
          rw [if_neg (fun hc => absurd hc.2 hmj)]
          ring)
        (fun hj => absurd (Finset.mem_range.mpr (by omega)) hj)]
      rw [if_pos ⟨rfl, rfl⟩, hxj]
      ring
    have hcols : ∑ k ∈ Finset.range j,
          (∑ i ∈ Finset.range (j + 1), x i * cholEntry A i k) *
          (∑ m ∈ Finset.range (j + 1), x m * cholEntry A m k) = 0 := by
      apply Finset.sum_eq_zero
      intro k hk
      rw [hcol k (Finset.mem_range.mp hk)]
      ring
    have hQpos := hpd x ⟨j, hjn, by rw [hxj]; norm_num⟩
    rw [hQ, hA, hcross, hcorner, hcols, zero_add] at hQpos
    exact hQpos

/-- C3: Cholesky round-trip.  For every matrix whose leading `n × n` block
is symmetric and positive definite — in particular the program's covariance
matrices `Σ[i][j] = ρ[i][j]·σ_i·σ_j` when they are positive definite — the
lower-triangular factor computed by `choleskyDecomposition` satisfies
`L·Lᵗ = Σ` exactly over the real-number embedding: for all `i, j < n`,
`Σ_k L[i][k]·L[j][k] = A[i][j]`. -/
theorem cholesky_roundtrip (A : Nat → Nat → ℝ) (n : Nat)
    (hs : SymmOn A n) (hpd : PosDefOn A n) :
    ∀ i, i < n → ∀ j, j < n →
      ∑ k ∈ Finset.range n, cholEntry A i k * cholEntry A j k = A i j := by
  have hrem := posdef_rem_pos A n hs hpd
  have hfull : ∀ i j, j < n → j < i →
      ∑ k ∈ Finset.range n, cholEntry A i k * cholEntry A j k = A i j := by
    intro i j hjn hji
    rw [chol_extend A i hjn]
    exact chol_partial_off A hji (ne_of_gt (cholEntry_diag_pos A j (hrem j hjn)))
  intro i hin j hjn
  rcases lt_trichotomy i j with h | h | h
  · rw [Finset.sum_congr rfl
      (fun k _ => mul_comm (cholEntry A i k) (cholEntry A j k)),
      hfull j i hin h, hs j hjn i hin]
  · rw [h, chol_extend A j hjn]
    exact chol_partial_diag A j (le_of_lt (hrem j hjn))
  · exact hfull i j hjn h

/-- The program's covariance construction applied to the identity
correlation table with unit volatilities (a concrete symmetric
positive-definite input). -/
noncomputable def idCov : Nat → Nat → ℝ :=
  covMatrixOf (fun i j => if i = j then 1 else 0) (fun _ => 1)

/-- `idCov` is symmetric on its leading `2 × 2` block. -/
theorem idCov_symm : SymmOn idCov 2 := by
  intro i _ j _
  show (if i = j then (1 : ℝ) else 0) * 1 * 1 = (if j = i then 1 else 0) * 1 * 1
  by_cases h : i = j
  · rw [h]
  · rw [if_neg h, if_neg (Ne.symm h)]

/-- `idCov` is positive definite on its leading `2 × 2` block. -/
theorem idCov_posdef : PosDefOn idCov 2 := by
  intro x hx
  obtain ⟨i, hi, hne⟩ := hx
  have hQ : ∑ i ∈ Finset.range 2, ∑ j ∈ Finset.range 2, x i * x j * idCov i j
      = x 0 * x 0 + x 1 * x 1 := by
    simp [Finset.sum_range_succ, idCov, covMatrixOf]
  rw [hQ]
  interval_cases i
  · nlinarith [mul_self_nonneg (x 0), mul_self_nonneg (x 1), mul_self_pos.mpr hne]
  · nlinarith [mul_self_nonneg (x 0), mul_self_nonneg (x 1), mul_self_pos.mpr hne]

/-- C3, witness: the round-trip theorem at the concrete symmetric
positive-definite matrix `idCov` (size 2). -/
theorem cholesky_roundtrip_witness :
    SymmOn idCov 2 ∧ PosDefOn idCov 2 ∧
    ∀ i, i < 2 → ∀ j, j < 2 →
      ∑ k ∈ Finset.range 2, cholEntry idCov i k * cholEntry idCov j k
        = idCov i j :=
  ⟨idCov_symm, idCov_posdef, cholesky_roundtrip idCov 2 idCov_symm idCov_posdef⟩
